import Mathlib

/-!
# CEGUI node / layout core: a shallow embedding

The definitions below embed parts of `cegui/include/CEGUI/Node.h`:

* the string conversions `PropertyHelper<HorizontalAlignment>::fromString` and
  `PropertyHelper<VerticalAlignment>::fromString`;
* the rectangle cache `Node::CachedRectf`;
* the tree operations `addChild`, `removeChild`, `isChild`, `isAncestor`;
* the geometry mutators `setPosition`, `setSize`, `setArea`, `setArea_impl`.

`Node.h` only declares the tree operations and `setArea_impl`; their bodies
are in `Node.cpp`, which is not among the sources.  Such definitions are
modelled from the specification and say so in their doc comment.

Further down are the column operations, lookups, sort handling and drag
scrolling of `ListHeader` (`src/elements/CEGUIListHeader.cpp`) and the index
check of `ListWidget::setItemSelectionState`
(`cegui/src/widgets/ListWidget.cpp`).

Floating point values (`float`) are represented by the rationals they denote.
The unified dimensions of the node geometry use exact arithmetic, as the
specification states them; the `float` sums and differences of `ListHeader`
round their result (section `float` arithmetic).  Mutable C++ objects become
explicit state passing: an operation
takes the state before the call and returns the state after it together with
its return value.
-/

namespace CEGUI

/-! ## Alignment enumerations and their string conversion (Node.h 52-202) -/

/-- Enumerated type used when specifying horizontal alignments. -/
inductive HorizontalAlignment where
  | HA_LEFT
  | HA_CENTRE
  | HA_RIGHT
deriving DecidableEq, Repr

/-- Enumerated type used when specifying vertical alignments. -/
inductive VerticalAlignment where
  | VA_TOP
  | VA_CENTRE
  | VA_BOTTOM
deriving DecidableEq, Repr

namespace PropertyHelperHorizontalAlignment

/-- The conversion `PropertyHelper<HorizontalAlignment>::fromString`. -/
def fromString (str : String) : HorizontalAlignment :=
  if str = "Centre" then
    HorizontalAlignment.HA_CENTRE
  else if str = "Right" then
    HorizontalAlignment.HA_RIGHT
  else
    HorizontalAlignment.HA_LEFT

/-- The conversion `PropertyHelper<HorizontalAlignment>::toString`; the last
branch of the source (an assertion failure) is unreachable for the three
enumerators. -/
def toString (val : HorizontalAlignment) : String :=
  if val = HorizontalAlignment.HA_CENTRE then
    "Centre"
  else if val = HorizontalAlignment.HA_RIGHT then
    "Right"
  else if val = HorizontalAlignment.HA_LEFT then
    "Left"
  else
    "Centre"

end PropertyHelperHorizontalAlignment

namespace PropertyHelperVerticalAlignment

/-- The conversion `PropertyHelper<VerticalAlignment>::fromString`. -/
def fromString (str : String) : VerticalAlignment :=
  if str = "Centre" then
    VerticalAlignment.VA_CENTRE
  else if str = "Bottom" then
    VerticalAlignment.VA_BOTTOM
  else
    VerticalAlignment.VA_TOP

/-- The conversion `PropertyHelper<VerticalAlignment>::toString`; the last
branch of the source (an assertion failure) is unreachable for the three
enumerators. -/
def toString (val : VerticalAlignment) : String :=
  if val = VerticalAlignment.VA_CENTRE then
    "Centre"
  else if val = VerticalAlignment.VA_BOTTOM then
    "Bottom"
  else if val = VerticalAlignment.VA_TOP then
    "Top"
  else
    "Centre"

end PropertyHelperVerticalAlignment

/-! ## Pixel rectangles -/

/-- A pixel position `Vector2f`; only a carrier of data here. -/
structure Vector2f where
  d_x : ℚ
  d_y : ℚ
deriving DecidableEq, Repr

/-- A pixel rectangle `Rectf`, given by its top-left and bottom-right corners. -/
structure Rectf where
  d_min : Vector2f
  d_max : Vector2f
deriving DecidableEq, Repr

/-! ## `Node::CachedRectf` (Node.h 295-358) -/

/-- The class `Node::CachedRectf`.  `ν` is the type of the state of the node
that `d_node` points to; `d_generator` is the member function pointer
`Rectf (Node::*)(bool) const`, so a call `CEGUI_CALL_MEMBER_FN(*d_node,
d_generator)(b)` is `d_generator d_node b`.  The two `mutable` members are
`d_cachedData` and `d_cacheValid`. -/
structure CachedRectf (ν : Type) where
  d_node : ν
  d_generator : ν → Bool → Rectf
  d_cachedData : Rectf
  d_cacheValid : Bool

/-- The result of calling a member function of `CachedRectf`: the value
returned, the cache after the call, and the generator invocations made during
the call (the `bool` argument of each, in order). -/
structure CacheCall (ν : Type) (α : Type) where
  ret : α
  cache : CachedRectf ν
  calls : List Bool

namespace CachedRectf

variable {ν : Type}

/-- The constructor: `d_cacheValid(false)`.  The source leaves `d_cachedData`
uninitialised, so its initial content `junk` is arbitrary. -/
def mk0 (node : ν) (generator : ν → Bool → Rectf) (junk : Rectf) : CachedRectf ν :=
  { d_node := node, d_generator := generator, d_cachedData := junk, d_cacheValid := false }

/-- The member `regenerateCache`. -/
def regenerateCache (c : CachedRectf ν) : CacheCall ν Unit :=
  { ret := (),
    cache := { c with d_cachedData := c.d_generator c.d_node false, d_cacheValid := true },
    calls := [false] }

/-- The member `get`. -/
def get (c : CachedRectf ν) : CacheCall ν Rectf :=
  if !c.d_cacheValid then
    let r := regenerateCache c
    { ret := r.cache.d_cachedData, cache := r.cache, calls := r.calls }
  else
    { ret := c.d_cachedData, cache := c, calls := [] }

/-- The member `getFresh`. -/
def getFresh (c : CachedRectf ν) (skipAllPixelAlignment : Bool) : CacheCall ν Rectf :=
  if !c.d_cacheValid && !skipAllPixelAlignment then
    get c
  else
    { ret := c.d_generator c.d_node skipAllPixelAlignment, cache := c,
      calls := [skipAllPixelAlignment] }

/-- The member `invalidateCache`. -/
def invalidateCache (c : CachedRectf ν) : CacheCall ν Unit :=
  { ret := (), cache := { c with d_cacheValid := false }, calls := [] }

/-- The member `isCacheValid`. -/
def isCacheValid (c : CachedRectf ν) : Bool :=
  c.d_cacheValid

/-- One call of a member function that can change the cache. -/
inductive Op where
  | get
  | getFresh (skipAllPixelAlignment : Bool)
  | invalidateCache
  | regenerateCache
deriving DecidableEq, Repr

/-- The cache after one call. -/
def step (c : CachedRectf ν) : Op → CachedRectf ν
  | Op.get => (get c).cache
  | Op.getFresh b => (getFresh c b).cache
  | Op.invalidateCache => (invalidateCache c).cache
  | Op.regenerateCache => (regenerateCache c).cache

/-- The cache after a sequence of calls, first call first. -/
def run (c : CachedRectf ν) (ops : List Op) : CachedRectf ν :=
  ops.foldl step c

end CachedRectf

/-! ## Unified dimensions (spec 3 and 4.1)

The header that declares `UDim`, `UVector2`, `USize` and `URect` is not among
the sources; the value types are modelled from the specification. -/

/-- Modelled from the spec: the value type `UDim`, a pair `(scale, offset)`;
`UDim.h` is not among the sources. -/
structure UDim where
  d_scale : ℚ
  d_offset : ℚ
deriving DecidableEq, Repr

namespace UDim

/-- Modelled from the spec: componentwise addition of `UDim` values (`UDim.h`
is not among the sources). -/
def add (a b : UDim) : UDim :=
  ⟨a.d_scale + b.d_scale, a.d_offset + b.d_offset⟩

/-- Modelled from the spec: componentwise subtraction of `UDim` values
(`UDim.h` is not among the sources). -/
def sub (a b : UDim) : UDim :=
  ⟨a.d_scale - b.d_scale, a.d_offset - b.d_offset⟩

instance : Add UDim := ⟨add⟩

instance : Sub UDim := ⟨sub⟩

/-- Modelled from the spec: `resolve(dim, baseExtent) = dim.scale*baseExtent +
dim.offset` (`UDim.h` and the coordinate converter are not among the
sources). -/
def resolve (dim : UDim) (baseExtent : ℚ) : ℚ :=
  dim.d_scale * baseExtent + dim.d_offset

end UDim

/-! ## The node tree (spec 3 and 4.5)

`Node.h` declares `addChild`, `removeChild`, `isChild` and `isAncestor`; their
bodies (`Node.cpp`) are not among the sources and are modelled from the
specification.  Nodes are handles into a pool of `N` nodes; each node has the
members `d_parent` and `d_children` of `Node.h` 1199-1205. -/

/-- The single error kind, `InvalidRequestException`. -/
inductive NodeError where
  | InvalidRequest
deriving DecidableEq, Repr

/-- The events of the tree operations, with the node that fires the event and
the child node that the event arguments carry. -/
inductive TreeEvent (N : Nat) where
  | ChildAdded (self child : Fin N)
  | ChildRemoved (self child : Fin N)
deriving DecidableEq, Repr

/-- The tree links of a pool of `N` nodes: for each node the members
`d_parent` (`none` is the null pointer) and `d_children`, and the events
fired so far. -/
structure NodePool (N : Nat) where
  d_parent : Fin N → Option (Fin N)
  d_children : Fin N → List (Fin N)
  fired : List (TreeEvent N)

/-- The result of a tree operation: the pool after the call and the exception
thrown, if any. -/
structure TreeCall (N : Nat) where
  pool : NodePool N
  error : Option NodeError

namespace NodePool

variable {N : Nat}

/-- Modelled from the spec: the nodes as created (the constructor is in
`Node.cpp`, not among the sources): standalone, no parent, no children. -/
def standalone (N : Nat) : NodePool N :=
  { d_parent := fun _ => none, d_children := fun _ => [], fired := [] }

/-- The accessor `getParentNode` (Node.h 373-376). -/
def getParentNode (t : NodePool N) (self : Fin N) : Option (Fin N) :=
  t.d_parent self

/-- The accessor `getChildCount` (Node.h 887-890). -/
def getChildCount (t : NodePool N) (self : Fin N) : Nat :=
  (t.d_children self).length

/-- Modelled from the spec: `Node::isChild` (body in `Node.cpp`, not among
the sources), a pure query over the children of `self`. -/
def isChild (t : NodePool N) (self node : Fin N) : Bool :=
  (t.d_children self).contains node

/-- Modelled from the spec: the walk of `Node::isAncestor` (body in `Node.cpp`,
not among the sources) up the parent chain of `x`, at most `fuel` links. -/
def isAncestorAux (t : NodePool N) (node : Fin N) : Nat → Fin N → Bool
  | 0, _ => false
  | fuel + 1, x =>
    match t.d_parent x with
    | none => false
    | some p => p == node || isAncestorAux t node fuel p

/-- Modelled from the spec: `Node::isAncestor` (body in `Node.cpp`, not among
the sources): true if `node` is the parent of `self`, or the parent of its
parent, and so on.  The walk follows at most `N` parent links, which reaches
every node of the chain (`isAncestor_iff`). -/
def isAncestor (t : NodePool N) (self node : Fin N) : Bool :=
  isAncestorAux t node N self

/-- Modelled from the spec: `Node::removeChild` (body in `Node.cpp`, not among
the sources): fails if `node` is not currently a child of `self`; otherwise
severs the parent link, removes `node` from the children keeping the order of
the remaining siblings, and fires `ChildRemoved`. -/
def removeChild (t : NodePool N) (self node : Fin N) : TreeCall N :=
  if isChild t self node then
    { pool :=
        { d_parent := Function.update t.d_parent node none,
          d_children :=
            Function.update t.d_children self ((t.d_children self).filter (fun c => c ≠ node)),
          fired := t.fired ++ [TreeEvent.ChildRemoved self node] },
      error := none }
  else
    { pool := t, error := some NodeError.InvalidRequest }

/-- Modelled from the spec: the detaching step of `Node::addChild` (body in
`Node.cpp`, not among the sources): if `node` already has a parent other than
`self` it is removed from that parent. -/
def detachFromOther (t : NodePool N) (self node : Fin N) : TreeCall N :=
  match t.d_parent node with
  | none => { pool := t, error := none }
  | some q => if q = self then { pool := t, error := none } else removeChild t q node

/-- Modelled from the spec: `Node::addChild` (body in `Node.cpp`, not among
the sources).  The call fails, changing nothing, if `node` is `self`, if
`node` is an ancestor of `self`, or if `self` is an ancestor of `node`:
spec 3 requires that no node is ever its own ancestor and that a child occurs
in the children of one parent at a time, spec 4.5 checks the ancestry by
walking the ancestor chain "or symmetrically checking containment", and
spec 8.3 requires that on a chain A -> B -> C both `C.addChild(A)` and
`A.addChild(C)` fail, the latter without structural change.  Otherwise, if
`node` already has a different parent it is first detached from that parent;
then `node` is appended to the children of `self`, its parent link is set,
and `ChildAdded` is fired. -/
def addChild (t : NodePool N) (self node : Fin N) : TreeCall N :=
  if self == node || isAncestor t self node || isAncestor t node self then
    { pool := t, error := some NodeError.InvalidRequest }
  else
    let d := detachFromOther t self node
    match d.error with
    | some e => { pool := t, error := some e }
    | none =>
      { pool :=
          { d_parent := Function.update d.pool.d_parent node (some self),
            d_children :=
              Function.update d.pool.d_children self (d.pool.d_children self ++ [node]),
            fired := d.pool.fired ++ [TreeEvent.ChildAdded self node] },
        error := none }

/-- One call of a tree mutator. -/
inductive TreeOp (N : Nat) where
  | addChild (self node : Fin N)
  | removeChild (self node : Fin N)
deriving DecidableEq, Repr

/-- The pool after one call (a failed call leaves its pool behind). -/
def applyOp (t : NodePool N) : TreeOp N → NodePool N
  | TreeOp.addChild self node => (addChild t self node).pool
  | TreeOp.removeChild self node => (removeChild t self node).pool

/-- The pool after a sequence of calls, first call first. -/
def runOps (t : NodePool N) (ops : List (TreeOp N)) : NodePool N :=
  ops.foldl applyOp t

/-- The parent link as a relation: `b` is the parent of `a`. -/
def parentRel (t : NodePool N) (a b : Fin N) : Prop :=
  t.d_parent a = some b

/-- The ancestor of `x` that is `k + 1` parent links away, if there is one. -/
def ancestorAt (t : NodePool N) : Nat → Fin N → Option (Fin N)
  | 0, x => t.d_parent x
  | k + 1, x => (t.d_parent x).bind (ancestorAt t k)

/-- The parent links and the children sequences agree: `c` is among the
children of `x` exactly when the parent of `c` is `x`. -/
def Consistent (t : NodePool N) : Prop :=
  ∀ x c : Fin N, c ∈ t.d_children x ↔ t.d_parent c = some x

/-- No node is its own ancestor. -/
def Acyclic (t : NodePool N) : Prop :=
  ∀ x : Fin N, ¬ Relation.TransGen (parentRel t) x x

/-- No node occurs twice among the children of a node. -/
def ChildrenDistinct (t : NodePool N) : Prop :=
  ∀ x : Fin N, (t.d_children x).Nodup

end NodePool

/-! ## Node geometry (spec 3, 4.3 and 4.4)

`Node.h` defines `setPosition` and `setSize` inline and declares `setArea`,
`setArea_impl`, `constrainToMinSize` and `constrainToMaxSize`; the bodies of
the latter (`Node.cpp`) are not among the sources and are modelled from the
specification.  The state is that of one node; the pixel size of its parent
(`getParentPixelSize`, also in `Node.cpp`) is a parameter `base` of every
operation, and so is the rounding rule of pixel alignment (`alignToPixels`),
which the specification leaves open. -/

/-- Modelled from the spec: `UVector2`, a pair of `UDim` (its header is not
among the sources). -/
structure UVector2 where
  d_x : UDim
  d_y : UDim
deriving DecidableEq, Repr

/-- Modelled from the spec: `USize`, a pair of `UDim` (its header is not
among the sources). -/
structure USize where
  d_width : UDim
  d_height : UDim
deriving DecidableEq, Repr

/-- A pixel size `Sizef`. -/
structure Sizef where
  d_width : ℚ
  d_height : ℚ
deriving DecidableEq, Repr

/-- Modelled from the spec: resolution of a `USize` against a base size,
componentwise `resolve` (the coordinate converter is not among the sources). -/
def USize.asAbsolute (sz : USize) (base : Sizef) : Sizef :=
  ⟨sz.d_width.resolve base.d_width, sz.d_height.resolve base.d_height⟩

/-- Modelled from the spec: `URect`, position and size held as two corners;
width and height are derived as `UDim` differences (its header is not among
the sources; `Node.h` uses `d_min`, `getPosition` and `getSize`). -/
structure URect where
  d_min : UVector2
  d_max : UVector2
deriving DecidableEq, Repr

namespace URect

/-- Modelled from the spec: the position of a `URect`, its `d_min` corner. -/
def getPosition (r : URect) : UVector2 :=
  r.d_min

/-- Modelled from the spec: the size of a `URect`, derived as `UDim`
differences of its corners. -/
def getSize (r : URect) : USize :=
  ⟨r.d_max.d_x - r.d_min.d_x, r.d_max.d_y - r.d_min.d_y⟩

/-- Modelled from the spec: the `URect` with the given position and size. -/
def ofPositionSize (pos : UVector2) (size : USize) : URect :=
  ⟨pos, ⟨pos.d_x + size.d_width, pos.d_y + size.d_height⟩⟩

end URect

/-- Modelled from the spec: the aspect modes `{Ignore, Shrink, Expand}` (the
enumeration `AspectMode` is declared outside the sources). -/
inductive AspectMode where
  | Ignore
  | Shrink
  | Expand
deriving DecidableEq, Repr

/-- The events that a change of area fires (`EventSized`, `EventMoved`). -/
inductive NodeEvent where
  | Sized
  | Moved
deriving DecidableEq, Repr

/-- The geometry members of `Node` (Node.h 1207-1234).  `outerRectValid` and
`innerRectValid` are the validity flags of the caches `d_unclippedOuterRect`
and `d_unclippedInnerRect`; `fired` lists the events fired so far. -/
structure Node where
  d_area : URect
  d_minSize : USize
  d_maxSize : USize
  d_aspectMode : AspectMode
  d_aspectRatio : ℚ
  d_pixelAligned : Bool
  d_pixelSize : Sizef
  outerRectValid : Bool
  innerRectValid : Bool
  fired : List NodeEvent

namespace Node

/-- The accessor `getPosition` (Node.h 526-529). -/
def getPosition (n : Node) : UVector2 :=
  n.d_area.getPosition

/-- The accessor `getSize` (Node.h 634-637). -/
def getSize (n : Node) : USize :=
  n.d_area.getSize

/-- The accessor `getPixelSize` (Node.h 804-807). -/
def getPixelSize (n : Node) : Sizef :=
  n.d_pixelSize

/-- Modelled from the spec: `Node::constrainToMinSize` (declared Node.h 1089,
body not among the sources): on each axis where the pixel value of `sz` is
below the pixel value of the minimum size, the component of `sz` becomes that
of the minimum size; returns whether `sz` changed, and the new `sz`. -/
def constrainToMinSize (n : Node) (base_sz : Sizef) (sz : USize) : Bool × USize :=
  let pixel_sz := sz.asAbsolute base_sz
  let min_sz := n.d_minSize.asAbsolute base_sz
  let w : Bool := decide (pixel_sz.d_width < min_sz.d_width)
  let h : Bool := decide (pixel_sz.d_height < min_sz.d_height)
  (w || h,
    ⟨if w then n.d_minSize.d_width else sz.d_width,
     if h then n.d_minSize.d_height else sz.d_height⟩)

/-- Modelled from the spec: `Node::constrainToMaxSize` (declared Node.h 1091,
body not among the sources): on each axis where the maximum is active (its
pixel value is not zero) and the pixel value of `sz` is above it, the
component of `sz` becomes that of the maximum size; returns whether `sz`
changed, and the new `sz`. -/
def constrainToMaxSize (n : Node) (base_sz : Sizef) (sz : USize) : Bool × USize :=
  let pixel_sz := sz.asAbsolute base_sz
  let max_sz := n.d_maxSize.asAbsolute base_sz
  let w : Bool := decide (max_sz.d_width ≠ 0) && decide (max_sz.d_width < pixel_sz.d_width)
  let h : Bool := decide (max_sz.d_height ≠ 0) && decide (max_sz.d_height < pixel_sz.d_height)
  (w || h,
    ⟨if w then n.d_maxSize.d_width else sz.d_width,
     if h then n.d_maxSize.d_height else sz.d_height⟩)

/-- Modelled from the spec: the aspect resolver (not among the sources): when
the mode is not `Ignore` the pixel size is adjusted so that width / height is
the ratio; `Shrink` shrinks one dimension, `Expand` grows one dimension. -/
def scaleToAspect (sz : Sizef) (mode : AspectMode) (ratio : ℚ) : Sizef :=
  match mode with
  | AspectMode.Ignore => sz
  | AspectMode.Shrink =>
    if sz.d_height * ratio ≤ sz.d_width then ⟨sz.d_height * ratio, sz.d_height⟩
    else ⟨sz.d_width, sz.d_width / ratio⟩
  | AspectMode.Expand =>
    if sz.d_width ≤ sz.d_height * ratio then ⟨sz.d_height * ratio, sz.d_height⟩
    else ⟨sz.d_width, sz.d_width / ratio⟩

/-- Modelled from the spec: the pixel size that a unified size resolves to
(not among the sources): resolved against the parent pixel size, aspect
locked, and rounded when the node is pixel aligned.  The rounding of a pixel
value to a pixel boundary is the parameter `alignToPixels`: the spec leaves
the rounding rule open (spec 9). -/
def resolvePixelSize (alignToPixels : ℚ → ℚ) (n : Node) (base : Sizef) (sz : USize) : Sizef :=
  let px := scaleToAspect (sz.asAbsolute base) n.d_aspectMode n.d_aspectRatio
  if n.d_pixelAligned then ⟨alignToPixels px.d_width, alignToPixels px.d_height⟩ else px

/-- One admissible pixel alignment: the nearest integer, halves rounded up. -/
def roundHalfUp (x : ℚ) : ℚ :=
  ((⌊x + 1 / 2⌋ : ℤ) : ℚ)

/-- The clamped pixel value: `lo` if `x` is below `lo`, `hi` if `x` is above
`hi`, and `x` otherwise. -/
def clampPixel (lo hi x : ℚ) : ℚ :=
  if x < lo then lo else if hi < x then hi else x

/-- The unified size left by the min / max constraint resolver. -/
def constrainedSize (n : Node) (base : Sizef) (size : USize) : USize :=
  (constrainToMaxSize n base (constrainToMinSize n base size).2).2

/-- Modelled from the spec: `Node::setArea_impl` (declared Node.h 1047, body
not among the sources), spec 4.3 steps 1 to 3.
1. the candidate size is resolved against the parent pixel size `base` and
   constrained to the minimum and maximum size; a clamped component of the
   unified size is recomputed; the pixel size is aspect locked and aligned;
2. for a top / left sizing operation whose size was clamped the position is
   not moved;
3. the new position and size are compared with the old ones; a changed
   position invalidates the rectangle caches and fires `Moved`, a changed size
   invalidates them and fires `Sized`, unless `fireEvents` is false.
Step 4 (notifying the children) concerns the state of other nodes.  The
rounding rule of pixel alignment is the parameter `alignToPixels`. -/
def setArea_impl (alignToPixels : ℚ → ℚ) (n : Node) (base : Sizef) (pos : UVector2)
    (size : USize) (topLeftSizing : Bool) (fireEvents : Bool) : Node :=
  let r1 := constrainToMinSize n base size
  let r2 := constrainToMaxSize n base r1.2
  let clamped : Bool := r1.1 || r2.1
  let newSize := r2.2
  let newPos := if topLeftSizing && clamped then n.d_area.getPosition else pos
  let moved : Bool := decide (newPos ≠ n.d_area.getPosition)
  let sized : Bool := decide (newSize ≠ n.d_area.getSize)
  { n with
    d_area := URect.ofPositionSize newPos newSize
    d_pixelSize := resolvePixelSize alignToPixels n base newSize
    outerRectValid := if moved || sized then false else n.outerRectValid
    innerRectValid := if moved || sized then false else n.innerRectValid
    fired :=
      n.fired ++
        (if fireEvents then
          (if moved then [NodeEvent.Moved] else []) ++ (if sized then [NodeEvent.Sized] else [])
        else []) }

/-- Modelled from the spec: `Node::setArea` (declared Node.h 399, body not
among the sources) delegates to `setArea_impl` with the default arguments
`topLeftSizing = false`, `fireEvents = true` of Node.h 1047-1048. -/
def setArea (alignToPixels : ℚ → ℚ) (n : Node) (base : Sizef) (pos : UVector2)
    (size : USize) : Node :=
  setArea_impl alignToPixels n base pos size false true

/-- The member `setPosition` (Node.h 494-497). -/
def setPosition (alignToPixels : ℚ → ℚ) (n : Node) (base : Sizef) (pos : UVector2) : Node :=
  setArea_impl alignToPixels n base pos n.d_area.getSize false true

/-- The member `setSize` (Node.h 615-618). -/
def setSize (alignToPixels : ℚ → ℚ) (n : Node) (base : Sizef) (size : USize) : Node :=
  setArea alignToPixels n base n.d_area.getPosition size

/-- Modelled from the spec: the constructor `Node()` (body not among the
sources): zero area, no minimum or maximum size, `Ignore` aspect mode, pixel
aligned, caches invalid, nothing fired. -/
def created : Node :=
  { d_area := ⟨⟨⟨0, 0⟩, ⟨0, 0⟩⟩, ⟨⟨0, 0⟩, ⟨0, 0⟩⟩⟩
    d_minSize := ⟨⟨0, 0⟩, ⟨0, 0⟩⟩
    d_maxSize := ⟨⟨0, 0⟩, ⟨0, 0⟩⟩
    d_aspectMode := AspectMode.Ignore
    d_aspectRatio := 1
    d_pixelAligned := true
    d_pixelSize := ⟨0, 0⟩
    outerRectValid := false
    innerRectValid := false
    fired := [] }

/-- The events fired between the state `before` and the later state `after`. -/
def firedBy (before after : Node) : List NodeEvent :=
  after.fired.drop before.fired.length

end Node

/-! ## Single axis position members (Node.h 499-539) -/

namespace Node

/-- The accessor `getXPosition` (Node.h 531-534). -/
def getXPosition (n : Node) : UDim :=
  n.getPosition.d_x

/-- The accessor `getYPosition` (Node.h 536-539); the source returns
`getPosition().d_x`. -/
def getYPosition (n : Node) : UDim :=
  n.getPosition.d_x

/-- The member `setXPosition` (Node.h 499-502). -/
def setXPosition (alignToPixels : ℚ → ℚ) (n : Node) (base : Sizef) (pos : UDim) : Node :=
  setPosition alignToPixels n base ⟨pos, getYPosition n⟩

/-- The member `setYPosition` (Node.h 504-507). -/
def setYPosition (alignToPixels : ℚ → ℚ) (n : Node) (base : Sizef) (pos : UDim) : Node :=
  setPosition alignToPixels n base ⟨getXPosition n, pos⟩

end Node

/-! ## `float` arithmetic

A `float` value is represented by the rational number it denotes.  A `float`
addition or subtraction returns the exact result rounded to a `float`; the
operations of `ListHeader` that add or subtract `float` values take the
rounding as the parameter `rnd`.  For IEEE-754 binary32 in the default rounding
mode the rounding is `binary32` (results in the finite range).  Comparisons,
`ceguimax` and `ceguimin` return one of their arguments and do not round. -/

/-- The integer nearest to `x`; of two nearest integers, the even one. -/
def roundNearestEven (x : ℚ) : ℤ :=
  if x - ⌊x⌋ < 1 / 2 then ⌊x⌋
  else if 1 / 2 < x - ⌊x⌋ then ⌊x⌋ + 1
  else if ⌊x⌋ % 2 = 0 then ⌊x⌋ else ⌊x⌋ + 1

/-- The binary32 exponent of a positive `x`: the `e` with `2 ^ e ≤ x < 2 ^ (e + 1)`,
and `-126` for the subnormal numbers below `2 ^ (-126)`. -/
def binary32Exponent (x : ℚ) : ℤ :=
  max (Int.log 2 x) (-126)

/-- The distance between neighbouring binary32 values at a positive `x`
(24 significant bits). -/
def binary32Ulp (x : ℚ) : ℚ :=
  (2 : ℚ) ^ (binary32Exponent x - 23)

/-- Rounding to IEEE-754 binary32, to the nearest value, ties to even. -/
def binary32 (x : ℚ) : ℚ :=
  if 0 < x then roundNearestEven (x / binary32Ulp x) * binary32Ulp x
  else if x < 0 then -(roundNearestEven (-x / binary32Ulp (-x)) * binary32Ulp (-x))
  else 0

/-- The `float` sum `a + b`: the exact sum, rounded to a `float` by `rnd`. -/
def floatAdd (rnd : ℚ → ℚ) (a b : ℚ) : ℚ :=
  rnd (a + b)

/-- The `float` difference `a - b`: the exact difference, rounded to a `float`
by `rnd`. -/
def floatSub (rnd : ℚ → ℚ) (a b : ℚ) : ℚ :=
  rnd (a - b)

/-! ## `ListHeader` (src/elements/CEGUIListHeader.cpp)

Segments are objects referred to by pointer; a pointer is an address (a
natural number) and the segment objects live in a store indexed by address.
The classes `Window` and `ListHeaderSegment` are not among the sources: a
segment is a record of the members that the header reads and writes through
their accessors (a setter stores, a getter returns).  Column indices (`uint`)
are natural numbers; no operation here can overflow for fewer than `2 ^ 32`
columns. -/

/-- The enumeration `ListHeaderSegment::SortDirection`. -/
inductive SortDirection where
  | None
  | Ascending
  | Descending
deriving DecidableEq, Repr

/-- The members of a `ListHeaderSegment` that the header uses: `getID`,
`getText`, the window position, the window size (`getWindowWidth` is
`d_size.d_x`), the minimum size, `getPixelSize().d_width` and the sort
direction. -/
structure ListHeaderSegment where
  d_ID : Nat
  d_text : String
  d_position : UVector2
  d_size : UVector2
  d_minSize : UVector2
  d_pixelWidth : ℚ
  d_sortDir : SortDirection
deriving DecidableEq, Repr

/-- The events that the header fires (ListHeader.cpp 59-71), with the
arguments that the claims are about. -/
inductive HeaderEvent where
  | SortColumnChanged
  | SortDirectionChanged
  | SegmentSized (segment : Nat)
  | SegmentClicked (segment : Nat)
  | SplitterDoubleClicked (segment : Nat)
  | SegmentSequenceChanged (oldIdx newIdx : Nat)
  | SegmentAdded
  | SegmentRemoved
  | SortSettingChanged
  | DragMoveSettingChanged
  | DragSizeSettingChanged
  | SegmentOffsetChanged
deriving DecidableEq, Repr

/-- What the header needs from the classes outside the sources: `newSegment`
is the state of a segment as `ListHeaderWindowRenderer::createNewSegment`
returns it, and `pixelWidth w` is the pixel width that `Window` gives to a
segment whose window width is `w`. -/
structure WindowSystem where
  newSegment : ListHeaderSegment
  pixelWidth : UDim → ℚ

/-- The state of a `ListHeader`: its members `d_segments` (pointers, in
column order), `d_sortSegment` (`none` is the null pointer), `d_sizingEnabled`,
`d_sortingEnabled`, `d_movingEnabled`, `d_uniqueIDNumber`, `d_segmentOffset`,
`d_sortDir`, whether `d_windowRenderer` is set, the `Window` members
`d_pixelSize` and the attached child windows, the store of segment objects,
the next unused address, and the events fired so far. -/
structure ListHeader where
  d_segments : List Nat
  d_sortSegment : Option Nat
  d_sizingEnabled : Bool
  d_sortingEnabled : Bool
  d_movingEnabled : Bool
  d_uniqueIDNumber : Nat
  d_segmentOffset : ℚ
  d_sortDir : SortDirection
  d_windowRenderer : Bool
  d_pixelSize : Sizef
  d_children : List Nat
  segmentStore : Nat → ListHeaderSegment
  nextAddress : Nat
  fired : List HeaderEvent

/-- The result of a member function of `ListHeader` that changes the header:
the header after the call and the value returned or the exception thrown. -/
structure HeaderCall (α : Type) where
  header : ListHeader
  ret : Except NodeError α

namespace ListHeader

/-- The macro `cegui_absdim` (outside the sources): an absolute `UDim`. -/
def cegui_absdim (x : ℚ) : UDim :=
  ⟨0, x⟩

/-- The macro `cegui_reldim` (outside the sources): a relative `UDim`. -/
def cegui_reldim (x : ℚ) : UDim :=
  ⟨x, 0⟩

/-- The constant `ListHeader::MinimumSegmentPixelWidth`. -/
def MinimumSegmentPixelWidth : ℚ := 20

/-- The constructor (ListHeader.cpp 87-99) for a header of the given `Window`
state: no segments, null sort segment, the three settings enabled, offset 0,
direction `None`. -/
def construct (windowRenderer : Bool) (pixelSize : Sizef)
    (store : Nat → ListHeaderSegment) (nextAddress : Nat) : ListHeader :=
  { d_segments := []
    d_sortSegment := none
    d_sizingEnabled := true
    d_sortingEnabled := true
    d_movingEnabled := true
    d_uniqueIDNumber := 0
    d_segmentOffset := 0
    d_sortDir := SortDirection.None
    d_windowRenderer := windowRenderer
    d_pixelSize := pixelSize
    d_children := []
    segmentStore := store
    nextAddress := nextAddress
    fired := [] }

/-- The member `getColumnCount` (113-116). -/
def getColumnCount (h : ListHeader) : Nat :=
  h.d_segments.length

/-- The element `d_segments[column]`; only read where `column` is in range. -/
def segmentAt (h : ListHeader) (column : Nat) : Nat :=
  h.d_segments.getD column 0

/-- The member `getSegmentFromColumn` (122-133); the reference returned is the
address of the segment. -/
def getSegmentFromColumn (h : ListHeader) (column : Nat) : Except NodeError Nat :=
  if column ≥ getColumnCount h then
    Except.error NodeError.InvalidRequest
  else
    Except.ok (segmentAt h column)

/-- The loop `for (uint i = 0; i < getColumnCount(); ++i)` that returns
`*d_segments[i]` for the first `i` whose segment passes `test`; the list holds
the segments from the current index on. -/
def segmentSearch (test : Nat → Bool) : List Nat → Option Nat
  | [] => none
  | p :: rest => if test p then some p else segmentSearch test rest

/-- The loop `for (uint i = 0; i < getColumnCount(); ++i)` that returns the
first `i` whose segment passes `test`; the list holds the segments from index
`i` on. -/
def columnSearch (test : Nat → Bool) : List Nat → Nat → Option Nat
  | [], _ => none
  | p :: rest, i => if test p then some i else columnSearch test rest (i + 1)

/-- The member `getSegmentFromID` (139-152). -/
def getSegmentFromID (h : ListHeader) (id : Nat) : Except NodeError Nat :=
  match segmentSearch (fun p => (h.segmentStore p).d_ID == id) h.d_segments with
  | some p => Except.ok p
  | none => Except.error NodeError.InvalidRequest

/-- The member `getSortSegment` (158-169). -/
def getSortSegment (h : ListHeader) : Except NodeError Nat :=
  match h.d_sortSegment with
  | none => Except.error NodeError.InvalidRequest
  | some p => Except.ok p

/-- The member `getColumnFromSegment` (175-188); the segment is given by its
address. -/
def getColumnFromSegment (h : ListHeader) (segment : Nat) : Except NodeError Nat :=
  match columnSearch (fun p => p == segment) h.d_segments 0 with
  | some i => Except.ok i
  | none => Except.error NodeError.InvalidRequest

/-- The member `getColumnFromID` (194-207). -/
def getColumnFromID (h : ListHeader) (id : Nat) : Except NodeError Nat :=
  match columnSearch (fun p => (h.segmentStore p).d_ID == id) h.d_segments 0 with
  | some i => Except.ok i
  | none => Except.error NodeError.InvalidRequest

/-- The member `getSortColumn` (213-216). -/
def getSortColumn (h : ListHeader) : Except NodeError Nat :=
  match getSortSegment h with
  | Except.error e => Except.error e
  | Except.ok p => getColumnFromSegment h p

/-- The member `getColumnWithText` (223-236). -/
def getColumnWithText (h : ListHeader) (text : String) : Except NodeError Nat :=
  match columnSearch (fun p => (h.segmentStore p).d_text == text) h.d_segments 0 with
  | some i => Except.ok i
  | none => Except.error NodeError.InvalidRequest

/-- The loop of `getPixelOffsetToSegment`: returns `offset` at the first
segment that is `segment`; `offset += width` is a `float` addition for every
segment passed. -/
def offsetSearch (rnd : ℚ → ℚ) (h : ListHeader) (segment : Nat) : List Nat → ℚ → Option ℚ
  | [], _ => none
  | p :: rest, offset =>
    if p = segment then some offset
    else offsetSearch rnd h segment rest (floatAdd rnd offset (h.segmentStore p).d_pixelWidth)

/-- The member `getPixelOffsetToSegment` (242-258). -/
def getPixelOffsetToSegment (rnd : ℚ → ℚ) (h : ListHeader) (segment : Nat) :
    Except NodeError ℚ :=
  match offsetSearch rnd h segment h.d_segments 0 with
  | some offset => Except.ok offset
  | none => Except.error NodeError.InvalidRequest

/-- The member `getPixelOffsetToColumn` (264-282): starting from `0.0f`, the
loop adds the pixel widths of the segments at the indices below `column`, in
order, each `offset += width` being a `float` addition. -/
def getPixelOffsetToColumn (rnd : ℚ → ℚ) (h : ListHeader) (column : Nat) :
    Except NodeError ℚ :=
  if column ≥ getColumnCount h then
    Except.error NodeError.InvalidRequest
  else
    Except.ok
      ((h.d_segments.take column).foldl
        (fun offset p => floatAdd rnd offset (h.segmentStore p).d_pixelWidth) 0)

/-- The member `getTotalSegmentsPixelExtent` (288-298): starting from `0.0f`,
the loop adds the pixel width of every segment, in order, each
`extent += width` being a `float` addition. -/
def getTotalSegmentsPixelExtent (rnd : ℚ → ℚ) (h : ListHeader) : ℚ :=
  h.d_segments.foldl (fun extent p => floatAdd rnd extent (h.segmentStore p).d_pixelWidth) 0

/-- The member `getColumnWidth` (304-315). -/
def getColumnWidth (h : ListHeader) (column : Nat) : Except NodeError UDim :=
  if column ≥ getColumnCount h then
    Except.error NodeError.InvalidRequest
  else
    Except.ok (h.segmentStore (segmentAt h column)).d_size.d_x

/-- The member `getSortDirection` (321-324). -/
def getSortDirection (h : ListHeader) : SortDirection :=
  h.d_sortDir

/-- The call `segment->setSortDirection(direction)` on the segment at address
`p`. -/
def setSegmentSortDirection (store : Nat → ListHeaderSegment) (p : Nat)
    (direction : SortDirection) : Nat → ListHeaderSegment :=
  Function.update store p { store p with d_sortDir := direction }

/-- The member `setSortColumn` (412-440). -/
def setSortColumn (h : ListHeader) (column : Nat) : HeaderCall Unit :=
  if column ≥ getColumnCount h then
    { header := h, ret := Except.error NodeError.InvalidRequest }
  else if h.d_sortSegment ≠ some (segmentAt h column) then
    let store1 :=
      match h.d_sortSegment with
      | some old => setSegmentSortDirection h.segmentStore old SortDirection.None
      | none => h.segmentStore
    { header :=
        { h with
          d_sortSegment := some (segmentAt h column)
          segmentStore := setSegmentSortDirection store1 (segmentAt h column) h.d_sortDir
          fired := h.fired ++ [HeaderEvent.SortColumnChanged] },
      ret := Except.ok () }
  else
    { header := h, ret := Except.ok () }

/-- The member `setSortSegment` (403-406). -/
def setSortSegment (h : ListHeader) (segment : Nat) : HeaderCall Unit :=
  match getColumnFromSegment h segment with
  | Except.error e => { header := h, ret := Except.error e }
  | Except.ok column => setSortColumn h column

/-- The loop of `layoutSegments`: each segment is given the position `pos`,
which then moves right by the window width of the segment. -/
def layoutLoop (store : Nat → ListHeaderSegment) :
    List Nat → UVector2 → Nat → ListHeaderSegment
  | [], _ => store
  | p :: rest, pos =>
    layoutLoop (Function.update store p { store p with d_position := pos }) rest
      ⟨pos.d_x + (store p).d_size.d_x, pos.d_y⟩

/-- The member `layoutSegments` (745-755). -/
def layoutSegments (h : ListHeader) : ListHeader :=
  { h with
    segmentStore :=
      layoutLoop h.segmentStore h.d_segments
        ⟨cegui_absdim (-h.d_segmentOffset), cegui_absdim 0⟩ }

/-- The call `d_segments.insert(d_segments.begin() + position, seg)`, for
`position` at most the length. -/
def insertAt (position : Nat) (seg : Nat) (segments : List Nat) : List Nat :=
  segments.take position ++ seg :: segments.drop position

/-- The member `createInitialisedSegment` (715-739) with `createNewSegment`
(1060-1072): without a window renderer the call throws; otherwise the window
renderer creates a segment, which gets the next unused address, and the
segment is given its size, minimum size, text and ID.  The name of the
segment and the event subscriptions are not part of the state. -/
def createInitialisedSegment (env : WindowSystem) (h : ListHeader) (text : String) (id : Nat)
    (width : UDim) : HeaderCall Nat :=
  if h.d_windowRenderer then
    { header :=
        { h with
          d_uniqueIDNumber := h.d_uniqueIDNumber + 1
          nextAddress := h.nextAddress + 1
          segmentStore :=
            Function.update h.segmentStore h.nextAddress
              { env.newSegment with
                d_size := ⟨width, cegui_reldim 1⟩
                d_pixelWidth := env.pixelWidth width
                d_minSize := ⟨cegui_absdim MinimumSegmentPixelWidth, cegui_absdim 0⟩
                d_text := text
                d_ID := id } },
      ret := Except.ok h.nextAddress }
  else
    { header := h, ret := Except.error NodeError.InvalidRequest }

/-- The member `insertColumn` (511-536). -/
def insertColumn (env : WindowSystem) (h : ListHeader) (text : String) (id : Nat)
    (width : UDim) (position : Nat) : HeaderCall Unit :=
  let position := if position > getColumnCount h then getColumnCount h else position
  let c := createInitialisedSegment env h text id width
  match c.ret with
  | Except.error e => { header := c.header, ret := Except.error e }
  | Except.ok seg =>
    let h1 : ListHeader :=
      { c.header with
        d_segments := insertAt position seg c.header.d_segments
        d_children := c.header.d_children ++ [seg] }
    let h2 := layoutSegments h1
    let h3 : ListHeader := { h2 with fired := h2.fired ++ [HeaderEvent.SegmentAdded] }
    match h3.d_sortSegment with
    | none => setSortColumn h3 position
    | some _ => { header := h3, ret := Except.ok () }

/-- The member `addColumn` (501-505). -/
def addColumn (env : WindowSystem) (h : ListHeader) (text : String) (id : Nat)
    (width : UDim) : HeaderCall Unit :=
  insertColumn env h text id width (getColumnCount h)

/-- The block "have we removed the sort column?" of `removeColumn` (555-571),
run after `seg` has been erased from the segment list. -/
def resetSortSegment (h : ListHeader) (seg : Nat) : ListHeader :=
  if h.d_sortSegment = some seg then
    if getColumnCount h > 0 then
      (setSortColumn { h with d_sortDir := SortDirection.None } 0).header
    else
      { h with d_sortSegment := none }
  else h

/-- The member `removeColumn` (542-586) with `destroyListSegment`
(1077-1089), which throws without a window renderer. -/
def removeColumn (h : ListHeader) (column : Nat) : HeaderCall Unit :=
  if column ≥ getColumnCount h then
    { header := h, ret := Except.error NodeError.InvalidRequest }
  else
    let seg := segmentAt h column
    let h1 : ListHeader := { h with d_segments := h.d_segments.eraseIdx column }
    let h2 : ListHeader := resetSortSegment h1 seg
    let h3 : ListHeader := { h2 with d_children := h2.d_children.filter (fun c => c ≠ seg) }
    if h3.d_windowRenderer then
      let h4 := layoutSegments h3
      { header := { h4 with fired := h4.fired ++ [HeaderEvent.SegmentRemoved] },
        ret := Except.ok () }
    else
      { header := h3, ret := Except.error NodeError.InvalidRequest }

/-- The member `moveColumn` (592-621). -/
def moveColumn (h : ListHeader) (column : Nat) (position : Nat) : HeaderCall Unit :=
  if column ≥ getColumnCount h then
    { header := h, ret := Except.error NodeError.InvalidRequest }
  else
    let position := if position ≥ getColumnCount h then getColumnCount h - 1 else position
    let seg := segmentAt h column
    let h1 : ListHeader :=
      { h with
        d_segments := insertAt position seg (h.d_segments.eraseIdx column)
        fired := h.fired ++ [HeaderEvent.SegmentSequenceChanged column position] }
    { header := layoutSegments h1, ret := Except.ok () }

/-- The member `setColumnWidth` (691-708). -/
def setColumnWidth (env : WindowSystem) (h : ListHeader) (column : Nat) (width : UDim) :
    HeaderCall Unit :=
  if column ≥ getColumnCount h then
    { header := h, ret := Except.error NodeError.InvalidRequest }
  else
    let seg := segmentAt h column
    let h1 : ListHeader :=
      { h with
        segmentStore :=
          Function.update h.segmentStore seg
            { h.segmentStore seg with
              d_size := ⟨width, (h.segmentStore seg).d_size.d_y⟩
              d_pixelWidth := env.pixelWidth width } }
    let h2 := layoutSegments h1
    { header := { h2 with fired := h2.fired ++ [HeaderEvent.SegmentSized seg] },
      ret := Except.ok () }

/-- The constant `ListHeader::ScrollSpeed` (74). -/
def ScrollSpeed : ℚ := 8

/-- The member `setSortDirection` (380-397). -/
def setSortDirection (h : ListHeader) (direction : SortDirection) : ListHeader :=
  if h.d_sortDir ≠ direction then
    { h with
      d_sortDir := direction
      segmentStore :=
        match h.d_sortSegment with
        | some p => setSegmentSortDirection h.segmentStore p direction
        | none => h.segmentStore
      fired := h.fired ++ [HeaderEvent.SortDirectionChanged] }
  else h

/-- The switch of `segmentClickedHandler` (949-965) on the current direction
of the sort segment. -/
def toggleSortDirection (h : ListHeader) (currDir : SortDirection) : ListHeader :=
  match currDir with
  | SortDirection.None => setSortDirection h SortDirection.Descending
  | SortDirection.Ascending => setSortDirection h SortDirection.Descending
  | SortDirection.Descending => setSortDirection h SortDirection.Ascending

/-- The member `segmentClickedHandler` (933-975); `seg` is the segment that the
event arguments point to.  If `setSortSegment` throws, the handler is left
with `d_sortDir` already written. -/
def segmentClickedHandler (h : ListHeader) (seg : Nat) : HeaderCall Bool :=
  if h.d_sortingEnabled then
    if h.d_sortSegment ≠ some seg then
      let r := setSortSegment { h with d_sortDir := SortDirection.Descending } seg
      match r.ret with
      | Except.error e => { header := r.header, ret := Except.error e }
      | Except.ok _ =>
        { header := { r.header with fired := r.header.fired ++ [HeaderEvent.SegmentClicked seg] },
          ret := Except.ok true }
    else
      let h1 :=
        match h.d_sortSegment with
        | some p => toggleSortDirection h (h.segmentStore p).d_sortDir
        | none => h
      { header := { h1 with fired := h1.fired ++ [HeaderEvent.SegmentClicked seg] },
        ret := Except.ok true }
  else
    { header := h, ret := Except.ok true }

/-- The member `setSegmentOffset` (672-685); `requestRedraw` has no effect on
the state. -/
def setSegmentOffset (h : ListHeader) (offset : ℚ) : ListHeader :=
  if h.d_segmentOffset ≠ offset then
    let h1 := layoutSegments { h with d_segmentOffset := offset }
    { h1 with fired := h1.fired ++ [HeaderEvent.SegmentOffsetChanged] }
  else h

/-- The limit `ceguimax(0.0f, getTotalSegmentsPixelExtent() - d_pixelSize.d_width)`
of `segmentDragHandler` (1011); the subtraction is a `float` subtraction. -/
def maxOffset (rnd : ℚ → ℚ) (h : ListHeader) : ℚ :=
  max 0 (floatSub rnd (getTotalSegmentsPixelExtent rnd h) h.d_pixelSize.d_width)

/-- The member `segmentDragHandler` (993-1023); `localMouseX` is the `d_x` of
the mouse position converted to window coordinates (the mouse cursor and the
coordinate converter are outside the sources).  `d_segmentOffset - ScrollSpeed`
and `d_segmentOffset + ScrollSpeed` are `float` operations.  The handler
returns true. -/
def segmentDragHandler (rnd : ℚ → ℚ) (h : ListHeader) (localMouseX : ℚ) : ListHeader :=
  if localMouseX < 0 then
    if h.d_segmentOffset > 0 then
      setSegmentOffset h (max 0 (floatSub rnd h.d_segmentOffset ScrollSpeed))
    else h
  else if localMouseX ≥ h.d_pixelSize.d_width then
    if h.d_segmentOffset < maxOffset rnd h then
      setSegmentOffset h (min (maxOffset rnd h) (floatAdd rnd h.d_segmentOffset ScrollSpeed))
    else h
  else h

/-- A window system for worked examples: a new segment is blank, and a window
width resolves against a header 200 pixels wide. -/
def sampleSystem : WindowSystem :=
  { newSegment :=
      { d_ID := 0
        d_text := ""
        d_position := ⟨⟨0, 0⟩, ⟨0, 0⟩⟩
        d_size := ⟨⟨0, 0⟩, ⟨0, 0⟩⟩
        d_minSize := ⟨⟨0, 0⟩, ⟨0, 0⟩⟩
        d_pixelWidth := 0
        d_sortDir := SortDirection.None }
    pixelWidth := fun w => w.resolve 200 }

/-- A header for worked examples: constructed with a window renderer, then
given the columns "A", "B" and "C" with `addColumn`. -/
def sampleHeader : ListHeader :=
  (addColumn sampleSystem
    (addColumn sampleSystem
      (addColumn sampleSystem
        (construct true ⟨200, 20⟩ (fun _ => sampleSystem.newSegment) 0)
        "A" 10 ⟨0, 50⟩).header
      "B" 11 ⟨0, 60⟩).header
    "C" 12 ⟨0, 70⟩).header

/-- A header for worked examples of `float` sums: the example header with
pixel widths of 16777216, 1 and 1 for its three segments, whose exact sum
16777218 is not what `float` addition gives. -/
def wideHeader : ListHeader :=
  { sampleHeader with
    segmentStore := fun p =>
      { sampleHeader.segmentStore p with d_pixelWidth := if p = 0 then 16777216 else 1 } }

/-- The events fired between the state `before` and the later state `after`. -/
def firedBy (before after : ListHeader) : List HeaderEvent :=
  after.fired.drop before.fired.length

/-- One call of a member function that changes the header. -/
inductive HeaderOp where
  | insertColumn (text : String) (id : Nat) (width : UDim) (position : Nat)
  | addColumn (text : String) (id : Nat) (width : UDim)
  | removeColumn (column : Nat)
  | moveColumn (column position : Nat)
  | setSortColumn (column : Nat)
  | setColumnWidth (column : Nat) (width : UDim)

/-- The header after one call (a call that throws leaves its header behind). -/
def applyOp (env : WindowSystem) (h : ListHeader) : HeaderOp → ListHeader
  | HeaderOp.insertColumn text id width position =>
    (insertColumn env h text id width position).header
  | HeaderOp.addColumn text id width => (addColumn env h text id width).header
  | HeaderOp.removeColumn column => (removeColumn h column).header
  | HeaderOp.moveColumn column position => (moveColumn h column position).header
  | HeaderOp.setSortColumn column => (setSortColumn h column).header
  | HeaderOp.setColumnWidth column width => (setColumnWidth env h column width).header

/-- The header after a sequence of calls, first call first. -/
def runOps (env : WindowSystem) (h : ListHeader) (ops : List HeaderOp) : ListHeader :=
  ops.foldl (applyOp env) h

/-- The segments of the header are pairwise distinct and their addresses are
in use (below the next unused address). -/
def WellFormed (h : ListHeader) : Prop :=
  h.d_segments.Nodup ∧ ∀ p ∈ h.d_segments, p < h.nextAddress

/-- The sum, in column order starting from 0, of the pixel widths of the first
`c` columns (the specification of the pixel offsets): nothing for no column,
and for `c + 1` columns the `float` sum of the sum for `c` columns and the
pixel width of the segment in column `c`. -/
def widthSum (rnd : ℚ → ℚ) (h : ListHeader) : Nat → ℚ
  | 0 => 0
  | c + 1 => floatAdd rnd (widthSum rnd h c) (h.segmentStore (segmentAt h c)).d_pixelWidth

end ListHeader

/-! ## `ListWidget` (cegui/src/widgets/ListWidget.cpp)

The classes `ListView` and `StandardItemModel` are not among the sources.  The
state holds the items of the model (their texts, in order) and the selected
item indices; the base class call `ListView::setItemSelectionState` is a
parameter. -/

/-- The state of a `ListWidget`: the items below the root index of
`d_itemModel` and the selected indices `d_indexSelectionStates`. -/
structure ListWidget where
  d_itemModel : List String
  d_indexSelectionStates : List Nat
deriving DecidableEq, Repr

/-- The result of a member function of `ListWidget` that changes the widget:
the widget after the call and the exception thrown, if any. -/
structure WidgetCall where
  widget : ListWidget
  error : Option NodeError
deriving DecidableEq, Repr

namespace ListWidget

/-- The member `getItemCount` (ListWidget.cpp 105-108): the number of children
of the root index of the item model. -/
def getItemCount (w : ListWidget) : Nat :=
  w.d_itemModel.length

/-- The member `setItemSelectionState(size_t, bool)` (ListWidget.cpp 55-65).
`listViewSet w i state` stands for the base class call
`ListView::setItemSelectionState(d_itemModel.makeIndex(i, root), state)`. -/
def setItemSelectionState (listViewSet : ListWidget → Nat → Bool → WidgetCall)
    (w : ListWidget) (item_index : Nat) (state : Bool) : WidgetCall :=
  if item_index > getItemCount w then
    { widget := w, error := some NodeError.InvalidRequest }
  else
    listViewSet w item_index state

end ListWidget

/-! # Theorems -/

/-! ## The rectangle cache -/

namespace CachedRectf

variable {ν : Type}

/-- The cache keeps its node and generator through every call. -/
theorem step_node_generator (c : CachedRectf ν) (op : Op) :
    (step c op).d_node = c.d_node ∧ (step c op).d_generator = c.d_generator := by
  cases op with
  | get =>
    cases h : c.d_cacheValid <;> simp [step, get, regenerateCache, h]
  | getFresh b =>
    cases h : c.d_cacheValid <;> cases b <;> simp [step, getFresh, get, regenerateCache, h]
  | invalidateCache => simp [step, invalidateCache]
  | regenerateCache => simp [step, regenerateCache]

/-- A valid cache that holds the generator's value still does so after any
one call. -/
theorem step_coherent (c : CachedRectf ν)
    (hc : c.d_cacheValid = true → c.d_cachedData = c.d_generator c.d_node false) (op : Op) :
    (step c op).d_cacheValid = true →
      (step c op).d_cachedData = (step c op).d_generator (step c op).d_node false := by
  cases op with
  | get =>
    cases h : c.d_cacheValid
    · simp [step, get, regenerateCache, h]
    · intro _
      simpa [step, get, h] using hc h
  | getFresh b =>
    cases h : c.d_cacheValid <;> cases b
    · simp [step, getFresh, get, regenerateCache, h]
    · simp [step, getFresh, h]
    · intro _
      simpa [step, getFresh, h] using hc h
    · intro _
      simpa [step, getFresh, h] using hc h
  | invalidateCache => simp [step, invalidateCache]
  | regenerateCache => simp [step, regenerateCache]

/-- Coherence, node and generator are kept by every sequence of calls. -/
theorem run_coherent (ops : List Op) (c : CachedRectf ν)
    (hc : c.d_cacheValid = true → c.d_cachedData = c.d_generator c.d_node false) :
    (run c ops).d_node = c.d_node ∧ (run c ops).d_generator = c.d_generator ∧
      ((run c ops).d_cacheValid = true →
        (run c ops).d_cachedData = c.d_generator c.d_node false) := by
  induction ops generalizing c with
  | nil => exact ⟨rfl, rfl, hc⟩
  | cons op rest ih =>
    have hs := step_node_generator c op
    have h := ih (step c op) (step_coherent c hc op)
    simp only [run, List.foldl_cons] at h ⊢
    rw [hs.1, hs.2] at h
    exact h

/-- C1. `get` on a valid cache returns the stored rectangle, leaves the cache
as it is and does not invoke the generator; `get` on an invalid cache invokes
the generator once with `false`, stores the result, marks the cache valid and
returns the result.  Hence two consecutive `get` calls on an invalidated cache
return the same rectangle and invoke the generator exactly once in total. -/
theorem get_contract (node : ν) (g : ν → Bool → Rectf) (data : Rectf) :
    get ⟨node, g, data, true⟩ = ⟨data, ⟨node, g, data, true⟩, []⟩ ∧
    get ⟨node, g, data, false⟩
      = ⟨g node false, ⟨node, g, g node false, true⟩, [false]⟩ ∧
    (get (get ⟨node, g, data, false⟩).cache).ret = (get ⟨node, g, data, false⟩).ret ∧
    (get ⟨node, g, data, false⟩).calls ++ (get (get ⟨node, g, data, false⟩).cache).calls
      = [false] := by
  simp [get, regenerateCache]

/-- C2. Starting from a freshly constructed (invalid) cache, after any sequence
of `get`, `getFresh`, `invalidateCache` and `regenerateCache` calls, a valid
cache holds the generator's value for `skipAllPixelAlignment = false`. -/
theorem validity_invariant (node : ν) (g : ν → Bool → Rectf) (junk : Rectf) (ops : List Op)
    (hvalid : (run (mk0 node g junk) ops).d_cacheValid = true) :
    (run (mk0 node g junk) ops).d_cachedData = g node false :=
  (run_coherent ops (mk0 node g junk) (by simp [mk0])).2.2 hvalid

/-- C2 at a concrete run: construct, read, invalidate, probe and read again. -/
theorem validity_invariant_witness :
    (run (mk0 () (fun _ b => if b then ⟨⟨0, 0⟩, ⟨3, 4⟩⟩ else ⟨⟨0, 0⟩, ⟨4, 4⟩⟩) ⟨⟨9, 9⟩, ⟨9, 9⟩⟩)
        [Op.get, Op.invalidateCache, Op.getFresh true, Op.get]).d_cacheValid = true ∧
    (run (mk0 () (fun _ b => if b then ⟨⟨0, 0⟩, ⟨3, 4⟩⟩ else ⟨⟨0, 0⟩, ⟨4, 4⟩⟩) ⟨⟨9, 9⟩, ⟨9, 9⟩⟩)
        [Op.get, Op.invalidateCache, Op.getFresh true, Op.get]).d_cachedData
      = ⟨⟨0, 0⟩, ⟨4, 4⟩⟩ :=
  ⟨rfl, validity_invariant () _ _ _ rfl⟩

/-- C3. `getFresh false` on an invalid cache is `get` (and leaves the cache
valid); on a valid cache, or with `skipAllPixelAlignment = true`, `getFresh`
returns the generator's value for its argument, invokes the generator once and
leaves the stored rectangle and the validity flag as they are. -/
theorem getFresh_contract (node : ν) (g : ν → Bool → Rectf) (data : Rectf) :
    getFresh ⟨node, g, data, false⟩ false = get ⟨node, g, data, false⟩ ∧
    (getFresh ⟨node, g, data, false⟩ false).ret = g node false ∧
    (getFresh ⟨node, g, data, false⟩ false).cache.d_cacheValid = true ∧
    (∀ skip : Bool, getFresh ⟨node, g, data, true⟩ skip
      = ⟨g node skip, ⟨node, g, data, true⟩, [skip]⟩) ∧
    (∀ valid : Bool, getFresh ⟨node, g, data, valid⟩ true
      = ⟨g node true, ⟨node, g, data, valid⟩, [true]⟩) := by
  refine ⟨by simp [getFresh], by simp [getFresh, get, regenerateCache],
    by simp [getFresh, get, regenerateCache], ?_, ?_⟩
  · intro skip
    simp [getFresh]
  · intro valid
    simp [getFresh]

/-- C4. `invalidateCache` clears the validity flag, does not invoke the
generator and keeps the stored rectangle; doing it twice is the same as doing
it once; afterwards `isCacheValid` is false and the next `get` invokes the
generator. -/
theorem invalidateCache_contract (node : ν) (g : ν → Bool → Rectf) (data : Rectf)
    (valid : Bool) :
    invalidateCache ⟨node, g, data, valid⟩ = ⟨(), ⟨node, g, data, false⟩, []⟩ ∧
    (invalidateCache (invalidateCache ⟨node, g, data, valid⟩).cache).cache
      = (invalidateCache ⟨node, g, data, valid⟩).cache ∧
    isCacheValid (invalidateCache ⟨node, g, data, valid⟩).cache = false ∧
    (get (invalidateCache ⟨node, g, data, valid⟩).cache).calls = [false] ∧
    (get (invalidateCache ⟨node, g, data, valid⟩).cache).ret = g node false := by
  simp [invalidateCache, isCacheValid, get, regenerateCache]

end CachedRectf

/-! ## Alignment parsing -/

/-- C10. `PropertyHelper<HorizontalAlignment>::fromString` gives `HA_CENTRE`
for "Centre", `HA_RIGHT` for "Right" and `HA_LEFT` for every other string,
"Left" included; `PropertyHelper<VerticalAlignment>::fromString` gives
`VA_CENTRE` for "Centre", `VA_BOTTOM` for "Bottom" and `VA_TOP` for every
other string, "Top" included. -/
theorem fromString_default :
    PropertyHelperHorizontalAlignment.fromString "Centre" = HorizontalAlignment.HA_CENTRE ∧
    PropertyHelperHorizontalAlignment.fromString "Right" = HorizontalAlignment.HA_RIGHT ∧
    PropertyHelperHorizontalAlignment.fromString "Left" = HorizontalAlignment.HA_LEFT ∧
    (∀ s : String, s ≠ "Centre" → s ≠ "Right" →
      PropertyHelperHorizontalAlignment.fromString s = HorizontalAlignment.HA_LEFT) ∧
    PropertyHelperVerticalAlignment.fromString "Centre" = VerticalAlignment.VA_CENTRE ∧
    PropertyHelperVerticalAlignment.fromString "Bottom" = VerticalAlignment.VA_BOTTOM ∧
    PropertyHelperVerticalAlignment.fromString "Top" = VerticalAlignment.VA_TOP ∧
    (∀ s : String, s ≠ "Centre" → s ≠ "Bottom" →
      PropertyHelperVerticalAlignment.fromString s = VerticalAlignment.VA_TOP) := by
  refine ⟨by decide, by decide, by decide, ?_, by decide, by decide, by decide, ?_⟩
  · intro s h1 h2
    simp [PropertyHelperHorizontalAlignment.fromString, h1, h2]
  · intro s h1 h2
    simp [PropertyHelperVerticalAlignment.fromString, h1, h2]

/-! ## The node tree -/

namespace NodePool

variable {N : Nat}

/-- Walking `a + b + 1` links up is walking `a` links and then `b` more. -/
theorem ancestorAt_add (t : NodePool N) (a b : Nat) (x : Fin N) :
    ancestorAt t (a + b + 1) x = (ancestorAt t a x).bind (ancestorAt t b) := by
  induction a generalizing x with
  | zero => simp [ancestorAt]
  | succ a ih =>
    have h : a + 1 + b + 1 = (a + b + 1) + 1 := by omega
    rw [h]
    show (t.d_parent x).bind (ancestorAt t (a + b + 1))
      = ((t.d_parent x).bind (ancestorAt t a)).bind (ancestorAt t b)
    cases t.d_parent x with
    | none => rfl
    | some p => exact ih p

/-- The fuelled walk finds `node` exactly when `node` is at most `fuel` links
above `x`. -/
theorem isAncestorAux_iff (t : NodePool N) (node : Fin N) (fuel : Nat) (x : Fin N) :
    isAncestorAux t node fuel x = true ↔ ∃ k, k < fuel ∧ ancestorAt t k x = some node := by
  induction fuel generalizing x with
  | zero => simp [isAncestorAux]
  | succ fuel ih =>
    simp only [isAncestorAux]
    cases hp : t.d_parent x with
    | none =>
      simp only [Bool.false_eq_true, false_iff, not_exists, not_and]
      intro k _
      cases k <;> simp [ancestorAt, hp]
    | some p =>
      simp only [Bool.or_eq_true, beq_iff_eq, ih]
      constructor
      · rintro (h | ⟨k, hk, h⟩)
        · exact ⟨0, by omega, by simp [ancestorAt, hp, h]⟩
        · exact ⟨k + 1, by omega, by simp [ancestorAt, hp, h]⟩
      · rintro ⟨k, hk, h⟩
        cases k with
        | zero =>
          left
          simpa [ancestorAt, hp] using h
        | succ k =>
          right
          exact ⟨k, by omega, by simpa [ancestorAt, hp] using h⟩

/-- The ancestor relation is the relation of being some number of parent links
above. -/
theorem transGen_iff (t : NodePool N) (x y : Fin N) :
    Relation.TransGen (parentRel t) x y ↔ ∃ k, ancestorAt t k x = some y := by
  constructor
  · intro h
    induction h using Relation.TransGen.head_induction_on with
    | base h => exact ⟨0, h⟩
    | ih h _ ih =>
      obtain ⟨k, hk⟩ := ih
      exact ⟨k + 1, by simp [ancestorAt, show t.d_parent _ = some _ from h, hk]⟩
  · rintro ⟨k, hk⟩
    induction k generalizing x with
    | zero => exact Relation.TransGen.single hk
    | succ k ih =>
      simp only [ancestorAt] at hk
      cases hp : t.d_parent x with
      | none => simp [hp] at hk
      | some p =>
        rw [hp] at hk
        exact Relation.TransGen.head hp (ih p hk)

/-- A parent chain that is defined at link `k` is defined at every link below. -/
theorem ancestorAt_defined_below (t : NodePool N) (k : Nat) (x y : Fin N)
    (h : ancestorAt t k x = some y) (i : Nat) (hi : i ≤ k) :
    ∃ z, ancestorAt t i x = some z := by
  rcases Nat.eq_or_lt_of_le hi with rfl | hlt
  · exact ⟨y, h⟩
  · have hk : k = i + (k - i - 1) + 1 := by omega
    rw [hk, ancestorAt_add] at h
    cases hz : ancestorAt t i x with
    | none => simp [hz] at h
    | some z => exact ⟨z, rfl⟩

/-- In a pool of `N` nodes, an ancestor of `x` is found within `N` parent
links of `x`: a longer walk visits some node twice and can be cut short. -/
theorem ancestorAt_shorten (t : NodePool N) (k : Nat) (x y : Fin N)
    (h : ancestorAt t k x = some y) : ∃ j, j < N ∧ ancestorAt t j x = some y := by
  induction k using Nat.strong_induction_on with
  | _ k ih =>
    by_cases hk : k < N
    · exact ⟨k, hk, h⟩
    · have hcard : Fintype.card (Fin N) < Fintype.card (Fin (N + 1)) := by simp
      obtain ⟨a, b, hab, hval⟩ := Fintype.exists_ne_map_eq_of_card_lt
        (fun i : Fin (N + 1) => (ancestorAt t i.val x).getD x) hcard
      -- order the two indices
      have key : ∀ a b : Fin (N + 1), a.val < b.val →
          (ancestorAt t a.val x).getD x = (ancestorAt t b.val x).getD x →
          ∃ j, j < N ∧ ancestorAt t j x = some y := by
        intro a b hlt hval
        have hbk : b.val ≤ k := by have := b.isLt; omega
        obtain ⟨za, hza⟩ := ancestorAt_defined_below t k x y h a.val (by omega)
        obtain ⟨zb, hzb⟩ := ancestorAt_defined_below t k x y h b.val hbk
        simp only [hza, hzb, Option.getD_some] at hval
        subst hval
        rcases Nat.eq_or_lt_of_le hbk with hbe | hblt
        · -- the chain ends at position b, so position a reaches y already
          rw [← hbe, hzb] at h
          have hy : za = y := by simpa using h
          exact ih a.val (by omega) (by rw [hza, hy])
        · have hk2 : k = b.val + (k - b.val - 1) + 1 := by omega
          have h2 := h
          rw [hk2, ancestorAt_add, hzb] at h2
          have h3 : ancestorAt t (a.val + (k - b.val - 1) + 1) x = some y := by
            rw [ancestorAt_add, hza]
            exact h2
          exact ih _ (by omega) h3
      rcases Nat.lt_or_gt_of_ne (fun h => hab (Fin.ext h)) with hlt | hgt
      · exact key a b hlt hval
      · exact key b a hgt hval.symm

/-- The walk of `isAncestor` has enough fuel: it returns true exactly when
`node` is the parent of `self`, or the parent of its parent, and so on. -/
theorem isAncestor_iff (t : NodePool N) (self node : Fin N) :
    isAncestor t self node = true ↔ Relation.TransGen (parentRel t) self node := by
  rw [isAncestor, isAncestorAux_iff, transGen_iff]
  constructor
  · rintro ⟨k, _, h⟩
    exact ⟨k, h⟩
  · rintro ⟨k, h⟩
    exact ancestorAt_shorten t k self node h


/-- Acyclicity only depends on the parent links. -/
theorem acyclic_of_parent_eq (t u : NodePool N) (h : u.d_parent = t.d_parent)
    (ht : Acyclic t) : Acyclic u := by
  intro x hx
  have : parentRel u = parentRel t := by
    funext a b
    simp [parentRel, h]
  rw [this] at hx
  exact ht x hx

/-- Clearing a parent link keeps the pool acyclic. -/
theorem acyclic_update_none (t u : NodePool N) (n : Fin N)
    (h : u.d_parent = Function.update t.d_parent n none) (ht : Acyclic t) : Acyclic u := by
  intro x hx
  refine ht x (Relation.TransGen.mono ?_ hx)
  intro a b hab
  simp only [parentRel, h] at hab
  by_cases han : a = n
  · subst han
    simp at hab
  · simpa [parentRel, Function.update_noteq han] using hab

/-- After the parent of `n` is set to `p`, an ancestor chain either is an old
chain, or passes through the new link from `n` to `p`. -/
theorem transGen_update_some (t u : NodePool N) (n p : Fin N)
    (h : u.d_parent = Function.update t.d_parent n (some p)) (x y : Fin N)
    (hxy : Relation.TransGen (parentRel u) x y) :
    Relation.TransGen (parentRel t) x y ∨
      (Relation.ReflTransGen (parentRel t) x n ∧ Relation.ReflTransGen (parentRel t) p y) := by
  have hstep : ∀ a b, parentRel u a b → parentRel t a b ∨ (a = n ∧ b = p) := by
    intro a b hab
    simp only [parentRel, h] at hab
    by_cases han : a = n
    · subst han
      right
      simp at hab
      exact ⟨rfl, hab.symm⟩
    · left
      simpa [parentRel, Function.update_noteq han] using hab
  induction hxy with
  | single hab =>
    rcases hstep _ _ hab with h1 | ⟨rfl, rfl⟩
    · exact Or.inl (Relation.TransGen.single h1)
    · exact Or.inr ⟨Relation.ReflTransGen.refl, Relation.ReflTransGen.refl⟩
  | tail _ hbc ih =>
    rcases hstep _ _ hbc with h1 | ⟨rfl, rfl⟩
    · rcases ih with h2 | ⟨h2, h3⟩
      · exact Or.inl (Relation.TransGen.tail h2 h1)
      · exact Or.inr ⟨h2, Relation.ReflTransGen.tail h3 h1⟩
    · rcases ih with h2 | ⟨h2, _⟩
      · exact Or.inr ⟨h2.to_reflTransGen, Relation.ReflTransGen.refl⟩
      · exact Or.inr ⟨h2, Relation.ReflTransGen.refl⟩

/-- Setting the parent of `n` to `p` keeps the pool acyclic when `n` is neither
`p` nor an ancestor of `p`. -/
theorem acyclic_update_some (t u : NodePool N) (n p : Fin N)
    (h : u.d_parent = Function.update t.d_parent n (some p)) (hne : p ≠ n)
    (hanc : ¬ Relation.TransGen (parentRel t) p n) (ht : Acyclic t) : Acyclic u := by
  intro x hx
  rcases transGen_update_some t u n p h x x hx with h1 | ⟨h1, h2⟩
  · exact ht x h1
  · have hpn : Relation.ReflTransGen (parentRel t) p n := h2.trans h1
    rcases Relation.reflTransGen_iff_eq_or_transGen.mp hpn with h3 | h3
    · exact hne h3.symm
    · exact hanc h3

/-- The parent links after `removeChild`. -/
theorem removeChild_parent (t : NodePool N) (self node : Fin N) :
    (removeChild t self node).pool.d_parent = t.d_parent ∨
      (removeChild t self node).pool.d_parent = Function.update t.d_parent node none := by
  unfold removeChild
  split
  · exact Or.inr rfl
  · exact Or.inl rfl

/-- The parent links after the detaching step. -/
theorem detachFromOther_parent (t : NodePool N) (self node : Fin N) :
    (detachFromOther t self node).pool.d_parent = t.d_parent ∨
      (detachFromOther t self node).pool.d_parent = Function.update t.d_parent node none := by
  unfold detachFromOther
  split
  · exact Or.inl rfl
  · split
    · exact Or.inl rfl
    · exact removeChild_parent t _ node

/-- The parent links after `addChild`: unchanged, or the guard passed and the
parent of `node` is now `self`. -/
theorem addChild_parent (t : NodePool N) (self node : Fin N) :
    (addChild t self node).pool.d_parent = t.d_parent ∨
      (self ≠ node ∧ isAncestor t self node = false ∧
        (addChild t self node).pool.d_parent
          = Function.update t.d_parent node (some self)) := by
  unfold addChild
  split
  · exact Or.inl rfl
  · rename_i hguard
    simp only [Bool.or_eq_true, beq_iff_eq, not_or, Bool.not_eq_true] at hguard
    simp only
    split
    · exact Or.inl rfl
    · refine Or.inr ⟨hguard.1.1, hguard.1.2, ?_⟩
      rcases detachFromOther_parent t self node with h | h
      · simp [h]
      · simp [h]

/-- Every call keeps the pool acyclic. -/
theorem applyOp_acyclic (t : NodePool N) (op : TreeOp N)
    (ht : Acyclic t) : Acyclic (applyOp t op) := by
  cases op with
  | addChild self node =>
    rcases addChild_parent t self node with h | ⟨hne, hanc, h⟩
    · exact acyclic_of_parent_eq t _ h ht
    · refine acyclic_update_some t _ node self h hne ?_ ht
      rw [← isAncestor_iff, hanc]
      simp
  | removeChild self node =>
    rcases removeChild_parent t self node with h | h
    · exact acyclic_of_parent_eq t _ h ht
    · exact acyclic_update_none t _ node h ht

/-- Every sequence of calls keeps the pool acyclic. -/
theorem runOps_acyclic (ops : List (TreeOp N)) (t : NodePool N) (ht : Acyclic t) :
    Acyclic (runOps t ops) := by
  induction ops generalizing t with
  | nil => exact ht
  | cons op rest ih =>
    simp only [runOps, List.foldl_cons]
    exact ih (applyOp t op) (applyOp_acyclic t op ht)

/-- Freshly created nodes form an acyclic pool. -/
theorem standalone_acyclic (N : Nat) : Acyclic (standalone N) := by
  intro x hx
  rcases (transGen_iff _ x x).mp hx with ⟨k, hk⟩
  cases k <;> simp [ancestorAt, standalone] at hk


/-- The query `isChild` is membership in the children sequence. -/
theorem isChild_iff (t : NodePool N) (self node : Fin N) :
    isChild t self node = true ↔ node ∈ t.d_children self := by
  simp [isChild]

/-- The call `removeChild` keeps parent links and children sequences in
agreement. -/
theorem removeChild_consistent (t : NodePool N) (self node : Fin N) (ht : Consistent t) :
    Consistent (removeChild t self node).pool := by
  unfold removeChild
  split
  · rename_i hchild
    have hpar : t.d_parent node = some self := (ht self node).mp ((isChild_iff t self node).mp hchild)
    intro x c
    by_cases hx : x = self <;> by_cases hc : c = node
    · subst hx; subst hc; simp
    · subst hx
      simp [Function.update_noteq hc, hc, ht x c]
    · subst hc
      have hx2 : ¬ self = x := fun h => hx h.symm
      simp [Function.update_noteq hx, ht x c, hpar, hx2]
    · simp [Function.update_noteq hx, Function.update_noteq hc, ht x c]
  · exact ht

/-- The detaching step keeps parent links and children sequences in
agreement. -/
theorem detachFromOther_consistent (t : NodePool N) (self node : Fin N) (ht : Consistent t) :
    Consistent (detachFromOther t self node).pool := by
  unfold detachFromOther
  split
  · exact ht
  · split
    · exact ht
    · exact removeChild_consistent t _ node ht

/-- After a successful detaching step `node` has no parent, or its parent is
`self`. -/
theorem detachFromOther_parent_node (t : NodePool N) (self node : Fin N)
    (herr : (detachFromOther t self node).error = none) :
    (detachFromOther t self node).pool.d_parent node = none ∨
      (detachFromOther t self node).pool.d_parent node = some self := by
  unfold detachFromOther at herr ⊢
  split
  · rename_i hp
    exact Or.inl hp
  · rename_i q hp
    split
    · rename_i hq
      right
      simp [hp, hq]
    · rename_i hq
      simp only [hp, hq, if_false] at herr
      left
      unfold removeChild at herr ⊢
      split
      · simp
      · rename_i hchild
        simp [hchild] at herr

/-- The call `addChild` keeps parent links and children sequences in
agreement. -/
theorem addChild_consistent (t : NodePool N) (self node : Fin N) (ht : Consistent t) :
    Consistent (addChild t self node).pool := by
  unfold addChild
  split
  · exact ht
  · simp only
    split
    · exact ht
    · rename_i herr
      have hd := detachFromOther_consistent t self node ht
      have hp := detachFromOther_parent_node t self node herr
      intro x c
      by_cases hx : x = self <;> by_cases hc : c = node
      · subst hx; subst hc; simp
      · subst hx
        simp [Function.update_noteq hc, hc, hd x c]
      · subst hc
        have hx2 : ¬ self = x := fun h => hx h.symm
        rcases hp with hp | hp
        · simp [Function.update_noteq hx, hd x c, hp, hx2]
        · simp [Function.update_noteq hx, hd x c, hp, hx2]
      · simp [Function.update_noteq hx, Function.update_noteq hc, hd x c]

/-- The parent of a node is one of its ancestors. -/
theorem isAncestor_of_parent (t : NodePool N) (x p : Fin N) (h : t.d_parent x = some p) :
    isAncestor t x p = true :=
  (isAncestor_iff t x p).mpr (Relation.TransGen.single h)

/-- The call `removeChild` leaves every children sequence without
repetition. -/
theorem removeChild_childrenDistinct (t : NodePool N) (self node : Fin N)
    (ht : ChildrenDistinct t) : ChildrenDistinct (removeChild t self node).pool := by
  unfold removeChild
  split
  · intro x
    by_cases hx : x = self
    · subst hx
      simpa using (ht x).filter _
    · simpa [Function.update_noteq hx] using ht x
  · exact ht

/-- The detaching step leaves every children sequence without repetition. -/
theorem detachFromOther_childrenDistinct (t : NodePool N) (self node : Fin N)
    (ht : ChildrenDistinct t) : ChildrenDistinct (detachFromOther t self node).pool := by
  unfold detachFromOther
  split
  · exact ht
  · split
    · exact ht
    · exact removeChild_childrenDistinct t _ node ht

/-- The call `addChild` leaves every children sequence without repetition: a
node that is already a child of `self` is rejected. -/
theorem addChild_childrenDistinct (t : NodePool N) (self node : Fin N)
    (hc : Consistent t) (ht : ChildrenDistinct t) :
    ChildrenDistinct (addChild t self node).pool := by
  unfold addChild
  split
  · exact ht
  · rename_i hguard
    simp only [Bool.or_eq_true, beq_iff_eq, not_or, Bool.not_eq_true] at hguard
    simp only
    split
    · exact ht
    · rename_i herr
      have hd := detachFromOther_consistent t self node hc
      have hn := detachFromOther_childrenDistinct t self node ht
      have hpar : t.d_parent node ≠ some self := by
        intro h
        have := isAncestor_of_parent t node self h
        rw [hguard.2] at this
        exact Bool.noConfusion this
      have hnot : node ∉ (detachFromOther t self node).pool.d_children self := by
        intro hmem
        have h1 := (hd self node).mp hmem
        rcases detachFromOther_parent t self node with h | h
        · rw [h] at h1
          exact hpar h1
        · rw [h] at h1
          simp at h1
      intro x
      by_cases hx : x = self
      · subst hx
        simp only [Function.update_same]
        exact List.Nodup.append (hn x) (List.nodup_singleton node)
          (List.disjoint_singleton.mpr hnot)
      · simpa [Function.update_noteq hx] using hn x

/-- Every sequence of calls, from a pool whose parent links and children
sequences agree, leaves every children sequence without repetition. -/
theorem runOps_childrenDistinct (ops : List (TreeOp N)) (t : NodePool N)
    (hc : Consistent t) (ht : ChildrenDistinct t) : ChildrenDistinct (runOps t ops) := by
  induction ops generalizing t with
  | nil => exact ht
  | cons op rest ih =>
    simp only [runOps, List.foldl_cons]
    cases op with
    | addChild self node =>
      exact ih _ (addChild_consistent t self node hc) (addChild_childrenDistinct t self node hc ht)
    | removeChild self node =>
      exact ih _ (removeChild_consistent t self node hc)
        (removeChild_childrenDistinct t self node ht)

/-- C5. If `node` is an ancestor of `self` then `self.addChild(node)` fails
with `InvalidRequest` and leaves the pool (every parent link, every children
sequence, the fired events) as it was.  Hence no sequence of `addChild` /
`removeChild` calls makes a node its own ancestor: not from a pool in which no
node is its own ancestor, and so not from standalone nodes. -/
theorem addChild_cycle_prevention (t : NodePool N) (self node : Fin N)
    (ops : List (TreeOp N)) (hanc : isAncestor t self node = true) :
    addChild t self node = ⟨t, some NodeError.InvalidRequest⟩ ∧
    (∀ t0 : NodePool N, (∀ x : Fin N, isAncestor t0 x x = false) →
      ∀ x : Fin N, isAncestor (runOps t0 ops) x x = false) ∧
    ∀ x : Fin N, isAncestor (runOps (standalone N) ops) x x = false := by
  have key : ∀ t0 : NodePool N, Acyclic t0 →
      ∀ x : Fin N, isAncestor (runOps t0 ops) x x = false := by
    intro t0 h0 x
    have hac := runOps_acyclic ops t0 h0
    cases h : isAncestor (runOps t0 ops) x x with
    | false => rfl
    | true => exact absurd ((isAncestor_iff _ x x).mp h) (hac x)
  refine ⟨by simp [addChild, hanc], fun t0 h0 => key t0 ?_, key _ (standalone_acyclic N)⟩
  intro x hx
  have := (isAncestor_iff t0 x x).mpr hx
  rw [h0 x] at this
  exact Bool.noConfusion this

/-- C5 on the chain 0 -> 1 -> 2: adding the root 0 below node 2 fails, and a
sequence of calls with rejected attempts, among them the addition of a node
to itself, leaves no node its own ancestor. -/
theorem addChild_cycle_prevention_witness :
    isAncestor (runOps (standalone 3) [TreeOp.addChild 0 1, TreeOp.addChild 1 2]) 2 0 = true ∧
    addChild (runOps (standalone 3) [TreeOp.addChild 0 1, TreeOp.addChild 1 2]) 2 0
      = ⟨runOps (standalone 3) [TreeOp.addChild 0 1, TreeOp.addChild 1 2],
          some NodeError.InvalidRequest⟩ ∧
    ∀ x : Fin 3, isAncestor (runOps (standalone 3)
      [TreeOp.addChild 0 1, TreeOp.addChild 1 2, TreeOp.addChild 2 0, TreeOp.addChild 1 1,
        TreeOp.removeChild 0 1, TreeOp.addChild 2 0]) x x = false :=
  have h := addChild_cycle_prevention
    (runOps (standalone 3) [TreeOp.addChild 0 1, TreeOp.addChild 1 2]) 2 0
    [TreeOp.addChild 0 1, TreeOp.addChild 1 2, TreeOp.addChild 2 0, TreeOp.addChild 1 1,
      TreeOp.removeChild 0 1, TreeOp.addChild 2 0] (by decide)
  ⟨by decide, h.1, h.2.2⟩

end NodePool

/-! ## Unified dimensions -/

/-- C7. Resolution distributes over composition: for all `UDim` values `a`,
`b` and every base extent `B`, resolving `a + b` against `B` gives the sum of
resolving `a` and `b` against `B` (exact arithmetic). -/
theorem UDim.resolve_add (a b : UDim) (B : ℚ) :
    UDim.resolve (a + b) B = UDim.resolve a B + UDim.resolve b B := by
  show UDim.resolve (UDim.add a b) B = _
  simp only [UDim.resolve, UDim.add]
  ring

/-! ## Node geometry -/

namespace Node

/-- The pixel width of the constrained size is the requested pixel width
clamped between the minimum and the (active) maximum. -/
theorem constrainedSize_width (n : Node) (base : Sizef) (size : USize)
    (hmm : (n.d_minSize.asAbsolute base).d_width ≤ (n.d_maxSize.asAbsolute base).d_width)
    (hact : (n.d_maxSize.asAbsolute base).d_width ≠ 0) :
    ((constrainedSize n base size).asAbsolute base).d_width
      = clampPixel (n.d_minSize.asAbsolute base).d_width (n.d_maxSize.asAbsolute base).d_width
          (size.asAbsolute base).d_width := by
  simp only [USize.asAbsolute] at hmm hact ⊢
  simp only [constrainedSize, constrainToMaxSize, constrainToMinSize, USize.asAbsolute,
    clampPixel]
  by_cases h1 : size.d_width.resolve base.d_width < n.d_minSize.d_width.resolve base.d_width
  · have h2 : ¬ n.d_maxSize.d_width.resolve base.d_width
        < n.d_minSize.d_width.resolve base.d_width := not_lt.mpr hmm
    simp [h1, h2]
  · by_cases h3 : n.d_maxSize.d_width.resolve base.d_width < size.d_width.resolve base.d_width
    · simp [h1, h3, hact]
    · simp [h1, h3]

/-- The pixel height of the constrained size is the requested pixel height
clamped between the minimum and the (active) maximum. -/
theorem constrainedSize_height (n : Node) (base : Sizef) (size : USize)
    (hmm : (n.d_minSize.asAbsolute base).d_height ≤ (n.d_maxSize.asAbsolute base).d_height)
    (hact : (n.d_maxSize.asAbsolute base).d_height ≠ 0) :
    ((constrainedSize n base size).asAbsolute base).d_height
      = clampPixel (n.d_minSize.asAbsolute base).d_height
          (n.d_maxSize.asAbsolute base).d_height (size.asAbsolute base).d_height := by
  simp only [USize.asAbsolute] at hmm hact ⊢
  simp only [constrainedSize, constrainToMaxSize, constrainToMinSize, USize.asAbsolute,
    clampPixel]
  by_cases h1 : size.d_height.resolve base.d_height < n.d_minSize.d_height.resolve base.d_height
  · have h2 : ¬ n.d_maxSize.d_height.resolve base.d_height
        < n.d_minSize.d_height.resolve base.d_height := not_lt.mpr hmm
    simp [h1, h2]
  · by_cases h3 : n.d_maxSize.d_height.resolve base.d_height
        < size.d_height.resolve base.d_height
    · simp [h1, h3, hact]
    · simp [h1, h3]

/-- The pixel size after `setSize` is the resolved constrained size. -/
theorem setSize_pixelSize (alignToPixels : ℚ → ℚ) (n : Node) (base : Sizef) (size : USize) :
    (setSize alignToPixels n base size).d_pixelSize
      = resolvePixelSize alignToPixels n base (constrainedSize n base size) := by
  simp [setSize, setArea, setArea_impl, constrainedSize]

/-- The pixel size after `setSize` at a node whose aspect mode is `Ignore`:
the clamped pixel value, aligned if the node is pixel aligned. -/
theorem setSize_pixelSize_ignore (alignToPixels : ℚ → ℚ) (n : Node) (base : Sizef)
    (size : USize) (haspect : n.d_aspectMode = AspectMode.Ignore) :
    (setSize alignToPixels n base size).getPixelSize
      = if n.d_pixelAligned then
          ⟨alignToPixels ((constrainedSize n base size).asAbsolute base).d_width,
            alignToPixels ((constrainedSize n base size).asAbsolute base).d_height⟩
        else (constrainedSize n base size).asAbsolute base := by
  rw [getPixelSize, setSize_pixelSize]
  simp only [resolvePixelSize, haspect, scaleToAspect]

/-- C8 (amended). For a node whose aspect mode is `Ignore`, whatever the
rounding rule of pixel alignment: on each axis where the resolved minimum does
not exceed the resolved maximum, the maximum is active, and (if the node is
pixel aligned) pixel alignment does not move the clamped value, the pixel size
after `setSize` is the clamped value: the minimum pixel value if the requested
pixel value is below it, the maximum pixel value if the requested pixel value
is above it, and the requested pixel value otherwise. -/
theorem setSize_clamps (alignToPixels : ℚ → ℚ) (n : Node) (base : Sizef) (size : USize)
    (haspect : n.d_aspectMode = AspectMode.Ignore) :
    ((n.d_minSize.asAbsolute base).d_width ≤ (n.d_maxSize.asAbsolute base).d_width →
      (n.d_maxSize.asAbsolute base).d_width ≠ 0 →
      (n.d_pixelAligned = true →
        alignToPixels
            (clampPixel (n.d_minSize.asAbsolute base).d_width
              (n.d_maxSize.asAbsolute base).d_width (size.asAbsolute base).d_width)
          = clampPixel (n.d_minSize.asAbsolute base).d_width
              (n.d_maxSize.asAbsolute base).d_width (size.asAbsolute base).d_width) →
      (setSize alignToPixels n base size).getPixelSize.d_width
        = if (size.asAbsolute base).d_width < (n.d_minSize.asAbsolute base).d_width then
            (n.d_minSize.asAbsolute base).d_width
          else if (n.d_maxSize.asAbsolute base).d_width < (size.asAbsolute base).d_width then
            (n.d_maxSize.asAbsolute base).d_width
          else (size.asAbsolute base).d_width) ∧
    ((n.d_minSize.asAbsolute base).d_height ≤ (n.d_maxSize.asAbsolute base).d_height →
      (n.d_maxSize.asAbsolute base).d_height ≠ 0 →
      (n.d_pixelAligned = true →
        alignToPixels
            (clampPixel (n.d_minSize.asAbsolute base).d_height
              (n.d_maxSize.asAbsolute base).d_height (size.asAbsolute base).d_height)
          = clampPixel (n.d_minSize.asAbsolute base).d_height
              (n.d_maxSize.asAbsolute base).d_height (size.asAbsolute base).d_height) →
      (setSize alignToPixels n base size).getPixelSize.d_height
        = if (size.asAbsolute base).d_height < (n.d_minSize.asAbsolute base).d_height then
            (n.d_minSize.asAbsolute base).d_height
          else if (n.d_maxSize.asAbsolute base).d_height < (size.asAbsolute base).d_height then
            (n.d_maxSize.asAbsolute base).d_height
          else (size.asAbsolute base).d_height) := by
  constructor
  · intro hmm hact hal
    have hw := constrainedSize_width n base size hmm hact
    rw [setSize_pixelSize_ignore alignToPixels n base size haspect]
    cases hpa : n.d_pixelAligned with
    | false =>
      simp only [Bool.false_eq_true, if_false]
      rw [hw]
      rfl
    | true =>
      simp only [if_true]
      rw [hw, hal hpa]
      rfl
  · intro hmm hact hal
    have hh := constrainedSize_height n base size hmm hact
    rw [setSize_pixelSize_ignore alignToPixels n base size haspect]
    cases hpa : n.d_pixelAligned with
    | false =>
      simp only [Bool.false_eq_true, if_false]
      rw [hh]
      rfl
    | true =>
      simp only [if_true]
      rw [hh, hal hpa]
      rfl

/-- Whole pixel values are not moved by rounding to the nearest integer. -/
theorem roundHalfUp_intCast (z : ℤ) : roundHalfUp (z : ℚ) = (z : ℚ) := by
  unfold roundHalfUp
  have h : ⌊(z : ℚ) + 1 / 2⌋ = z := by
    rw [Int.floor_eq_iff]
    constructor <;> linarith
  rw [h]

/-- Addition of `UDim` values, unfolded. -/
theorem UDim_add_def (a b : UDim) :
    a + b = ⟨a.d_scale + b.d_scale, a.d_offset + b.d_offset⟩ := rfl

/-- Subtraction of `UDim` values, unfolded. -/
theorem UDim_sub_def (a b : UDim) :
    a - b = ⟨a.d_scale - b.d_scale, a.d_offset - b.d_offset⟩ := rfl

/-- C8 (amended) at a pixel aligned node with minimum 10 x 10 and maximum
200 x 200 pixels, rounding to the nearest integer: a request of 5.5 x 300
pixels resolves to 10 x 200. -/
theorem setSize_clamps_witness :
    (setSize roundHalfUp
      { created with d_minSize := ⟨⟨0, 10⟩, ⟨0, 10⟩⟩, d_maxSize := ⟨⟨0, 200⟩, ⟨0, 200⟩⟩ }
      ⟨800, 600⟩ ⟨⟨0, 11 / 2⟩, ⟨0, 300⟩⟩).getPixelSize.d_width = 10 ∧
    (setSize roundHalfUp
      { created with d_minSize := ⟨⟨0, 10⟩, ⟨0, 10⟩⟩, d_maxSize := ⟨⟨0, 200⟩, ⟨0, 200⟩⟩ }
      ⟨800, 600⟩ ⟨⟨0, 11 / 2⟩, ⟨0, 300⟩⟩).getPixelSize.d_height = 200 := by
  have h := setSize_clamps roundHalfUp
    { created with d_minSize := ⟨⟨0, 10⟩, ⟨0, 10⟩⟩, d_maxSize := ⟨⟨0, 200⟩, ⟨0, 200⟩⟩ }
    ⟨800, 600⟩ ⟨⟨0, 11 / 2⟩, ⟨0, 300⟩⟩ rfl
  simp only [created, USize.asAbsolute, UDim.resolve, clampPixel] at h
  norm_num at h
  have a10 : roundHalfUp 10 = 10 := by exact_mod_cast roundHalfUp_intCast 10
  have a200 : roundHalfUp 200 = 200 := by exact_mod_cast roundHalfUp_intCast 200
  exact ⟨by simpa [created] using h.1 a10, by simpa [created] using h.2 a200⟩

/-- C8 as stated fails.  With aspect mode `Expand` and ratio 2 (spec 8.5), at
a node that is not pixel aligned, a request of 100 x 100 pixels that lies
within the bounds 10 and 200 resolves to a width of 200, not 100.  At a pixel
aligned node with a minimum width of 10.25 pixels, a request of 5 pixels does
not resolve to 10.25 under any rounding rule that yields a whole pixel
value. -/
theorem setSize_clamp_counterexample :
    ((∀ alignToPixels : ℚ → ℚ,
        (setSize alignToPixels
          { created with d_minSize := ⟨⟨0, 10⟩, ⟨0, 10⟩⟩, d_maxSize := ⟨⟨0, 200⟩, ⟨0, 200⟩⟩,
                         d_aspectMode := AspectMode.Expand, d_aspectRatio := 2,
                         d_pixelAligned := false }
          ⟨800, 600⟩ ⟨⟨0, 100⟩, ⟨0, 100⟩⟩).getPixelSize = ⟨200, 100⟩) ∧
      (USize.asAbsolute ⟨⟨0, 100⟩, ⟨0, 100⟩⟩ ⟨800, 600⟩).d_width = 100 ∧
      (USize.asAbsolute ⟨⟨0, 10⟩, ⟨0, 10⟩⟩ ⟨800, 600⟩).d_width = 10 ∧
      (USize.asAbsolute ⟨⟨0, 200⟩, ⟨0, 200⟩⟩ ⟨800, 600⟩).d_width = 200) ∧
    ((∀ alignToPixels : ℚ → ℚ, (∃ z : ℤ, alignToPixels (41 / 4) = (z : ℚ)) →
        (setSize alignToPixels
          { created with d_minSize := ⟨⟨0, 41 / 4⟩, ⟨0, 10⟩⟩,
                         d_maxSize := ⟨⟨0, 200⟩, ⟨0, 200⟩⟩ }
          ⟨800, 600⟩ ⟨⟨0, 5⟩, ⟨0, 100⟩⟩).getPixelSize.d_width ≠ 41 / 4) ∧
      (USize.asAbsolute ⟨⟨0, 5⟩, ⟨0, 100⟩⟩ ⟨800, 600⟩).d_width = 5 ∧
      (USize.asAbsolute ⟨⟨0, 41 / 4⟩, ⟨0, 10⟩⟩ ⟨800, 600⟩).d_width = 41 / 4 ∧
      (USize.asAbsolute ⟨⟨0, 200⟩, ⟨0, 200⟩⟩ ⟨800, 600⟩).d_width = 200) := by
  refine ⟨⟨?_, ?_, ?_, ?_⟩, ⟨?_, ?_, ?_, ?_⟩⟩
  · intro alignToPixels
    rw [getPixelSize, setSize_pixelSize]
    simp only [resolvePixelSize, constrainedSize, constrainToMaxSize, constrainToMinSize,
      scaleToAspect, created, USize.asAbsolute, UDim.resolve]
    norm_num
  · simp [USize.asAbsolute, UDim.resolve]
  · simp [USize.asAbsolute, UDim.resolve]
  · simp [USize.asAbsolute, UDim.resolve]
  · intro alignToPixels hz
    obtain ⟨z, hz⟩ := hz
    rw [getPixelSize, setSize_pixelSize]
    simp only [resolvePixelSize, constrainedSize, constrainToMaxSize, constrainToMinSize,
      scaleToAspect, created, USize.asAbsolute, UDim.resolve]
    norm_num
    rw [hz]
    intro h
    have h4 : ((4 * z : ℤ) : ℚ) = ((41 : ℤ) : ℚ) := by
      push_cast
      linarith
    have h5 : 4 * z = 41 := by exact_mod_cast h4
    omega
  · simp [USize.asAbsolute, UDim.resolve]
  · simp [USize.asAbsolute, UDim.resolve]
  · simp [USize.asAbsolute, UDim.resolve]

end Node


/-! ## `float` arithmetic -/

/-- Rounding to the nearest integer does not go below the floor. -/
theorem floor_le_roundNearestEven (x : ℚ) : ⌊x⌋ ≤ roundNearestEven x := by
  unfold roundNearestEven
  split_ifs <;> omega

/-- Rounding to the nearest integer does not go above the floor plus one. -/
theorem roundNearestEven_le_floor_add_one (x : ℚ) : roundNearestEven x ≤ ⌊x⌋ + 1 := by
  unfold roundNearestEven
  split_ifs <;> omega

/-- An integer is its own nearest integer. -/
theorem roundNearestEven_intCast (n : ℤ) : roundNearestEven (n : ℚ) = n := by
  unfold roundNearestEven
  simp

/-- Rounding to the nearest integer is monotone. -/
theorem roundNearestEven_mono {x y : ℚ} (hxy : x ≤ y) :
    roundNearestEven x ≤ roundNearestEven y := by
  have hf : ⌊x⌋ ≤ ⌊y⌋ := Int.floor_mono hxy
  rcases lt_or_eq_of_le hf with hlt | heq
  · calc roundNearestEven x ≤ ⌊x⌋ + 1 := roundNearestEven_le_floor_add_one x
      _ ≤ ⌊y⌋ := hlt
      _ ≤ roundNearestEven y := floor_le_roundNearestEven y
  · have hr : x - ⌊x⌋ ≤ y - ⌊x⌋ := by linarith
    unfold roundNearestEven
    rw [← heq]
    split_ifs <;> first | omega | (exfalso; linarith)

/-- The distance between neighbouring binary32 values is positive. -/
theorem binary32Ulp_pos (x : ℚ) : 0 < binary32Ulp x := by
  unfold binary32Ulp
  positivity

/-- The binary32 exponent is monotone on the positive numbers. -/
theorem binary32Exponent_mono {x y : ℚ} (hx : 0 < x) (hxy : x ≤ y) :
    binary32Exponent x ≤ binary32Exponent y := by
  unfold binary32Exponent
  exact max_le_max (Int.log_mono_right hx hxy) (le_refl _)

/-- A number is below the next power of two after its binary32 exponent. -/
theorem lt_zpow_binary32Exponent (x : ℚ) : x < (2 : ℚ) ^ (binary32Exponent x + 1) := by
  have h1 : x < ((2 : ℕ) : ℚ) ^ (Int.log 2 x + 1) := Int.lt_zpow_succ_log_self (by norm_num) x
  have h2 : ((2 : ℕ) : ℚ) ^ (Int.log 2 x + 1) ≤ (2 : ℚ) ^ (binary32Exponent x + 1) := by
    push_cast
    apply zpow_le_zpow_right₀ (by norm_num)
    unfold binary32Exponent
    have := le_max_left (Int.log 2 x) (-126)
    omega
  exact lt_of_lt_of_le h1 h2

/-- The rounding of a positive number. -/
theorem binary32_of_pos {x : ℚ} (hx : 0 < x) :
    binary32 x = roundNearestEven (x / binary32Ulp x) * binary32Ulp x := by
  simp [binary32, hx]

/-- The rounding of a positive number does not exceed the power of two above it. -/
theorem binary32_pos_le {x : ℚ} (hx : 0 < x) :
    binary32 x ≤ (2 : ℚ) ^ (binary32Exponent x + 1) := by
  rw [binary32_of_pos hx]
  have hq := binary32Ulp_pos x
  have h24 : (2 : ℚ) ^ (binary32Exponent x + 1) = ((2 ^ 24 : ℤ) : ℚ) * binary32Ulp x := by
    unfold binary32Ulp
    have h : (2 : ℚ) ^ (binary32Exponent x + 1)
        = (2 : ℚ) ^ (24 : ℤ) * (2 : ℚ) ^ (binary32Exponent x - 23) := by
      rw [← zpow_add₀ (by norm_num)]
      congr 1
      ring
    rw [h]
    norm_num
  rw [h24]
  apply mul_le_mul_of_nonneg_right _ hq.le
  have hle : x / binary32Ulp x ≤ ((2 ^ 24 : ℤ) : ℚ) := by
    rw [div_le_iff₀ hq, ← h24]
    exact (lt_zpow_binary32Exponent x).le
  have := roundNearestEven_mono hle
  rw [roundNearestEven_intCast] at this
  exact_mod_cast this

/-- The rounding of a positive normal number is at least the power of two below it. -/
theorem le_binary32_pos {x : ℚ} (hx : 0 < x) (he : binary32Exponent x = Int.log 2 x) :
    (2 : ℚ) ^ (binary32Exponent x) ≤ binary32 x := by
  rw [binary32_of_pos hx]
  have hq := binary32Ulp_pos x
  have h23 : (2 : ℚ) ^ (binary32Exponent x) = ((2 ^ 23 : ℤ) : ℚ) * binary32Ulp x := by
    unfold binary32Ulp
    have h : (2 : ℚ) ^ (binary32Exponent x)
        = (2 : ℚ) ^ (23 : ℤ) * (2 : ℚ) ^ (binary32Exponent x - 23) := by
      rw [← zpow_add₀ (by norm_num)]
      congr 1
      ring
    rw [h]
    norm_num
  rw [h23]
  apply mul_le_mul_of_nonneg_right _ hq.le
  have hle : ((2 ^ 23 : ℤ) : ℚ) ≤ x / binary32Ulp x := by
    rw [le_div_iff₀ hq, ← h23, he]
    have := Int.zpow_log_le_self (b := 2) (by norm_num) hx
    exact_mod_cast this
  have := roundNearestEven_mono hle
  rw [roundNearestEven_intCast] at this
  exact_mod_cast this

/-- The rounding of a positive number is not negative. -/
theorem binary32_nonneg {x : ℚ} (hx : 0 < x) : 0 ≤ binary32 x := by
  rw [binary32_of_pos hx]
  have hq := binary32Ulp_pos x
  apply mul_nonneg _ hq.le
  have h0 : (0 : ℤ) ≤ ⌊x / binary32Ulp x⌋ := Int.floor_nonneg.mpr (div_nonneg hx.le hq.le)
  exact_mod_cast le_trans h0 (floor_le_roundNearestEven _)

/-- Rounding to binary32 is monotone on the positive numbers. -/
theorem binary32_mono_pos {x y : ℚ} (hx : 0 < x) (hxy : x ≤ y) : binary32 x ≤ binary32 y := by
  have hy : 0 < y := lt_of_lt_of_le hx hxy
  rcases lt_or_eq_of_le (binary32Exponent_mono hx hxy) with hlt | heq
  · have hey : binary32Exponent y = Int.log 2 y := by
      unfold binary32Exponent at hlt ⊢
      have h126 := le_max_right (Int.log 2 x) (-126)
      rcases max_cases (Int.log 2 y) (-126) with ⟨h1, _⟩ | ⟨h1, _⟩
      · exact h1
      · omega
    calc binary32 x ≤ (2 : ℚ) ^ (binary32Exponent x + 1) := binary32_pos_le hx
      _ ≤ (2 : ℚ) ^ (binary32Exponent y) := zpow_le_zpow_right₀ (by norm_num) (by omega)
      _ ≤ binary32 y := le_binary32_pos hy hey
  · rw [binary32_of_pos hx, binary32_of_pos hy]
    have hq : binary32Ulp x = binary32Ulp y := by
      unfold binary32Ulp
      rw [heq]
    rw [hq]
    have hqp := binary32Ulp_pos y
    apply mul_le_mul_of_nonneg_right _ hqp.le
    have : x / binary32Ulp y ≤ y / binary32Ulp y := div_le_div_of_nonneg_right hxy hqp.le
    exact_mod_cast roundNearestEven_mono this

/-- Rounding to binary32 commutes with negation. -/
theorem binary32_neg (x : ℚ) : binary32 (-x) = -binary32 x := by
  unfold binary32
  rcases lt_trichotomy x 0 with h | h | h
  · have h1 : 0 < -x := by linarith
    have h2 : ¬ 0 < x := by linarith
    simp [h, h1, h2]
  · subst h
    simp
  · have h1 : ¬ 0 < -x := by linarith
    have h2 : -x < 0 := by linarith
    simp [h, h1, h2]

/-- Zero is a binary32 value. -/
theorem binary32_zero : binary32 0 = 0 := by
  simp [binary32]

/-- Rounding to binary32 is monotone. -/
theorem binary32_monotone : Monotone binary32 := by
  intro x y hxy
  rcases lt_trichotomy x 0 with hx | hx | hx
  · rcases lt_trichotomy y 0 with hy | hy | hy
    · have h := binary32_mono_pos (x := -y) (y := -x) (by linarith) (by linarith)
      rw [binary32_neg, binary32_neg] at h
      linarith
    · subst hy
      have h := binary32_nonneg (x := -x) (by linarith)
      rw [binary32_neg] at h
      rw [binary32_zero]
      linarith
    · have h1 := binary32_nonneg (x := -x) (by linarith)
      rw [binary32_neg] at h1
      have h2 := binary32_nonneg hy
      linarith
  · subst hx
    rw [binary32_zero]
    rcases lt_or_eq_of_le hxy with hy | hy
    · exact binary32_nonneg hy
    · rw [← hy, binary32_zero]
  · exact binary32_mono_pos hx hxy

/-- Rounding is not exact: `2 ^ 24 + 1` is not a binary32 value and rounds to
`2 ^ 24`. -/
theorem binary32_inexact : binary32 16777217 = 16777216 := by
  have hlog : Int.log 2 (16777217 : ℚ) = 24 := by
    have h : Int.log 2 ((16777217 : ℕ) : ℚ) = ((Nat.log 2 16777217 : ℕ) : ℤ) := Int.log_natCast 2 16777217
    have h2 : Nat.log 2 16777217 = 24 :=
      Nat.log_eq_of_pow_le_of_lt_pow (by norm_num) (by norm_num)
    rw [h2] at h
    exact_mod_cast h
  have hulp : binary32Ulp 16777217 = 2 := by
    simp only [binary32Ulp, binary32Exponent, hlog]
    norm_num
  have hfloor : ⌊(16777217 : ℚ) / 2⌋ = 8388608 := by
    rw [Int.floor_eq_iff]
    constructor <;> norm_num
  have hrne : roundNearestEven ((16777217 : ℚ) / 2) = 8388608 := by
    simp only [roundNearestEven, hfloor]
    norm_num
  simp only [binary32, hulp, hrne]
  norm_num

/-- The number `2 ^ 24` is a binary32 value. -/
theorem binary32_two_pow_24 : binary32 16777216 = 16777216 := by
  have hlog : Int.log 2 (16777216 : ℚ) = 24 := by
    have h : Int.log 2 ((16777216 : ℕ) : ℚ) = ((Nat.log 2 16777216 : ℕ) : ℤ) :=
      Int.log_natCast 2 16777216
    have h2 : Nat.log 2 16777216 = 24 :=
      Nat.log_eq_of_pow_le_of_lt_pow (by norm_num) (by norm_num)
    rw [h2] at h
    exact_mod_cast h
  have hulp : binary32Ulp 16777216 = 2 := by
    simp only [binary32Ulp, binary32Exponent, hlog]
    norm_num
  have hrne : roundNearestEven ((16777216 : ℚ) / 2) = 8388608 := by
    have h : ((16777216 : ℚ) / 2) = ((8388608 : ℤ) : ℚ) := by norm_num
    rw [h, roundNearestEven_intCast]
  simp only [binary32, hulp, hrne]
  norm_num

/-- A natural number below `2 ^ 24` is a binary32 value. -/
theorem binary32_natCast (n : ℕ) (h : n < 2 ^ 24) : binary32 (n : ℚ) = (n : ℚ) := by
  rcases Nat.eq_zero_or_pos n with h0 | h0
  · subst h0
    simp [binary32]
  · have hx : (0 : ℚ) < (n : ℚ) := by exact_mod_cast h0
    have hlog : Nat.log 2 n < 24 := Nat.log_lt_of_lt_pow (by omega) h
    have he : binary32Exponent (n : ℚ) = (Nat.log 2 n : ℤ) := by
      unfold binary32Exponent
      rw [Int.log_natCast]
      exact max_eq_left (by omega)
    have hq : binary32Ulp (n : ℚ) * (2 : ℚ) ^ (23 - Nat.log 2 n) = 1 := by
      unfold binary32Ulp
      rw [he, ← zpow_natCast (2 : ℚ) (23 - Nat.log 2 n), ← zpow_add₀ (by norm_num)]
      have : ((Nat.log 2 n : ℤ) - 23 + ((23 - Nat.log 2 n : ℕ) : ℤ)) = 0 := by omega
      rw [this, zpow_zero]
    have hqp := binary32Ulp_pos (n : ℚ)
    have hdiv : (n : ℚ) / binary32Ulp (n : ℚ) = (((n * 2 ^ (23 - Nat.log 2 n) : ℕ) : ℤ) : ℚ) := by
      rw [div_eq_iff hqp.ne']
      push_cast
      rw [mul_assoc, mul_comm _ (binary32Ulp (n : ℚ)), hq, mul_one]
    rw [binary32_of_pos hx, hdiv, roundNearestEven_intCast]
    push_cast
    rw [mul_assoc, mul_comm _ (binary32Ulp (n : ℚ)), hq, mul_one]

/-! ## The list header -/

namespace ListHeader

/-- Inserting one segment makes the list one longer. -/
theorem length_insertAt (k x : Nat) (l : List Nat) :
    (insertAt k x l).length = l.length + 1 := by
  simp only [insertAt, List.length_append, List.length_cons, List.length_take,
    List.length_drop]
  omega

/-- The inserted segment is at the insertion index. -/
theorem getElem?_insertAt_self (k x : Nat) (l : List Nat) (hk : k ≤ l.length) :
    (insertAt k x l)[k]? = some x := by
  have hlen : (l.take k).length = k := by simp [List.length_take, hk]
  rw [insertAt, List.getElem?_append_right (by omega), hlen]
  simp

/-- Below the insertion index nothing moves. -/
theorem getElem?_insertAt_of_lt (k x : Nat) (l : List Nat) (i : Nat) (hi : i < k)
    (hk : k ≤ l.length) : (insertAt k x l)[i]? = l[i]? := by
  have hlen : (l.take k).length = k := by simp [List.length_take, hk]
  rw [insertAt, List.getElem?_append_left (by omega), List.getElem?_take_of_lt hi]

/-- From the insertion index on every segment moves up by one. -/
theorem getElem?_insertAt_of_ge (k x : Nat) (l : List Nat) (i : Nat) (hi : k ≤ i)
    (hk : k ≤ l.length) : (insertAt k x l)[i + 1]? = l[i]? := by
  have hlen : (l.take k).length = k := by simp [List.length_take, hk]
  rw [insertAt, List.getElem?_append_right (by omega), hlen]
  have h1 : i + 1 - k = (i - k) + 1 := by omega
  rw [h1, List.getElem?_cons_succ, List.getElem?_drop]
  congr 1
  omega

/-- The value of `segmentAt` at an index in range. -/
theorem segmentAt_eq (h : ListHeader) (column p : Nat) (hp : h.d_segments[column]? = some p) :
    segmentAt h column = p := by
  simp [segmentAt, List.getD_eq_getElem?_getD, hp]

/-- The member `setSortColumn` leaves the segment list as it is. -/
theorem setSortColumn_segments (h : ListHeader) (column : Nat) :
    (setSortColumn h column).header.d_segments = h.d_segments := by
  unfold setSortColumn
  split
  · rfl
  · split <;> rfl

/-- The member `setSortColumn` does not throw for a column in range. -/
theorem setSortColumn_ret (h : ListHeader) (column : Nat) (hc : column < getColumnCount h) :
    (setSortColumn h column).ret = Except.ok () := by
  unfold setSortColumn
  rw [if_neg (by omega)]
  split <;> rfl

/-- With a window renderer, `insertColumn` succeeds and inserts the new
segment, whose address is the next unused one, at the clamped position. -/
theorem insertColumn_segments (env : WindowSystem) (h : ListHeader) (text : String) (id : Nat)
    (width : UDim) (position : Nat) (hwr : h.d_windowRenderer = true) :
    (insertColumn env h text id width position).ret = Except.ok () ∧
    (insertColumn env h text id width position).header.d_segments
      = insertAt (min position (getColumnCount h)) h.nextAddress h.d_segments := by
  have hmin : (if position > getColumnCount h then getColumnCount h else position)
      = min position (getColumnCount h) := by
    split
    · omega
    · omega
  simp only [insertColumn, createInitialisedSegment, hwr, if_true, hmin]
  cases hs : h.d_sortSegment with
  | some q => simp [layoutSegments, hs]
  | none =>
    simp only [layoutSegments, hs]
    refine ⟨?_, ?_⟩
    · apply setSortColumn_ret
      simp only [getColumnCount, length_insertAt]
      have := Nat.min_le_right position h.d_segments.length
      omega
    · rw [setSortColumn_segments]


/-- In a list without repetition, a segment occurs at one index only. -/
theorem nodup_index_unique (l : List Nat) (hl : l.Nodup) (i j p : Nat)
    (hi : l[i]? = some p) (hj : l[j]? = some p) : i = j := by
  have hil : i < l.length := by
    rcases Nat.lt_or_ge i l.length with h | h
    · exact h
    · rw [List.getElem?_eq_none h] at hi
      cases hi
  have hjl : j < l.length := by
    rcases Nat.lt_or_ge j l.length with h | h
    · exact h
    · rw [List.getElem?_eq_none h] at hj
      cases hj
  rcases Nat.lt_trichotomy i j with h | h | h
  · exact absurd (hi.trans hj.symm) (List.nodup_iff_getElem?_ne_getElem?.mp hl i j h hjl)
  · exact h
  · exact absurd (hj.trans hi.symm) (List.nodup_iff_getElem?_ne_getElem?.mp hl j i h hil)

/-- The element read by `segmentAt` at an index in range. -/
theorem getElem?_segmentAt (h : ListHeader) (column : Nat) (hc : column < getColumnCount h) :
    h.d_segments[column]? = some (segmentAt h column) := by
  have hc2 : column < h.d_segments.length := hc
  simp [segmentAt, List.getD_eq_getElem?_getD, List.getElem?_eq_getElem hc2]

/-- The layout loop only writes positions. -/
theorem layoutLoop_fields (store : Nat → ListHeaderSegment) (l : List Nat) (pos : UVector2)
    (q : Nat) :
    (layoutLoop store l pos q).d_ID = (store q).d_ID ∧
    (layoutLoop store l pos q).d_text = (store q).d_text ∧
    (layoutLoop store l pos q).d_size = (store q).d_size ∧
    (layoutLoop store l pos q).d_pixelWidth = (store q).d_pixelWidth ∧
    (layoutLoop store l pos q).d_sortDir = (store q).d_sortDir := by
  induction l generalizing store pos with
  | nil => simp [layoutLoop]
  | cons p rest ih =>
    simp only [layoutLoop]
    have h := ih (Function.update store p { store p with d_position := pos })
      ⟨pos.d_x + (store p).d_size.d_x, pos.d_y⟩
    by_cases hq : q = p
    · subst hq
      simpa using h
    · simpa [Function.update_noteq hq] using h

/-- Setting the sort direction of a segment keeps every ID and text. -/
theorem setSegmentSortDirection_fields (store : Nat → ListHeaderSegment) (p : Nat)
    (direction : SortDirection) (q : Nat) :
    (setSegmentSortDirection store p direction q).d_ID = (store q).d_ID ∧
    (setSegmentSortDirection store p direction q).d_text = (store q).d_text := by
  by_cases hq : q = p
  · subst hq
    simp [setSegmentSortDirection]
  · simp [setSegmentSortDirection, Function.update_noteq hq]

/-- The member `setSortColumn` only writes sort directions into the segment
store. -/
theorem setSortColumn_store (h : ListHeader) (column q : Nat) :
    ((setSortColumn h column).header.segmentStore q).d_ID = (h.segmentStore q).d_ID ∧
    ((setSortColumn h column).header.segmentStore q).d_text = (h.segmentStore q).d_text := by
  unfold setSortColumn
  split
  · exact ⟨rfl, rfl⟩
  · split
    · simp only []
      obtain ⟨h1, h2⟩ := setSegmentSortDirection_fields
        (match h.d_sortSegment with
          | some old => setSegmentSortDirection h.segmentStore old SortDirection.None
          | none => h.segmentStore)
        (segmentAt h column) h.d_sortDir q
      rw [h1, h2]
      cases h.d_sortSegment with
      | none => exact ⟨rfl, rfl⟩
      | some old => exact setSegmentSortDirection_fields h.segmentStore old SortDirection.None q
    · exact ⟨rfl, rfl⟩

/-- With a window renderer, the segment that `insertColumn` creates holds the
given ID and text. -/
theorem insertColumn_new_segment (env : WindowSystem) (h : ListHeader) (text : String)
    (id : Nat) (width : UDim) (position : Nat) (hwr : h.d_windowRenderer = true) :
    ((insertColumn env h text id width position).header.segmentStore h.nextAddress).d_ID = id ∧
    ((insertColumn env h text id width position).header.segmentStore h.nextAddress).d_text
      = text := by
  simp only [insertColumn, createInitialisedSegment, hwr, if_true]
  cases hs : h.d_sortSegment with
  | some q =>
    simp only [layoutSegments, hs]
    refine ⟨?_, ?_⟩
    · rw [(layoutLoop_fields _ _ _ _).1]
      simp
    · rw [(layoutLoop_fields _ _ _ _).2.1]
      simp
  | none =>
    simp only [layoutSegments, hs]
    refine ⟨?_, ?_⟩
    · rw [(setSortColumn_store _ _ _).1]
      simp only []
      rw [(layoutLoop_fields _ _ _ _).1]
      simp
    · rw [(setSortColumn_store _ _ _).2]
      simp only []
      rw [(layoutLoop_fields _ _ _ _).2.1]
      simp

/-- C14. With a window renderer attached, `insertColumn` on a header with `n`
columns succeeds and yields `n + 1` columns; the new segment (the one created
by the call, holding the given text and ID) is at index `min position n`; every
segment previously at an index below that keeps its index and every other
previous segment moves up by exactly one.  `addColumn` places the new segment
at index `n`. -/
theorem insertColumn_placement (env : WindowSystem) (h : ListHeader) (text : String) (id : Nat)
    (width : UDim) (position : Nat) (hwr : h.d_windowRenderer = true) :
    (insertColumn env h text id width position).ret = Except.ok () ∧
    getColumnCount (insertColumn env h text id width position).header
      = getColumnCount h + 1 ∧
    (insertColumn env h text id width position).header.d_segments[
        min position (getColumnCount h)]? = some h.nextAddress ∧
    ((insertColumn env h text id width position).header.segmentStore h.nextAddress).d_ID
      = id ∧
    ((insertColumn env h text id width position).header.segmentStore h.nextAddress).d_text
      = text ∧
    (∀ i : Nat, i < min position (getColumnCount h) →
      (insertColumn env h text id width position).header.d_segments[i]?
        = h.d_segments[i]?) ∧
    (∀ i : Nat, min position (getColumnCount h) ≤ i →
      (insertColumn env h text id width position).header.d_segments[i + 1]?
        = h.d_segments[i]?) ∧
    (addColumn env h text id width).ret = Except.ok () ∧
    (addColumn env h text id width).header.d_segments[getColumnCount h]?
      = some h.nextAddress ∧
    (addColumn env h text id width).header.d_segments = h.d_segments ++ [h.nextAddress] := by
  obtain ⟨hret, hseg⟩ := insertColumn_segments env h text id width position hwr
  obtain ⟨hret2, hseg2⟩ := insertColumn_segments env h text id width (getColumnCount h) hwr
  have hk : min position (getColumnCount h) ≤ h.d_segments.length :=
    Nat.min_le_right _ _
  obtain ⟨hid, htext⟩ := insertColumn_new_segment env h text id width position hwr
  refine ⟨hret, ?_, ?_, hid, htext, ?_, ?_, hret2, ?_, ?_⟩
  · rw [getColumnCount, hseg, length_insertAt]
    rfl
  · rw [hseg]
    exact getElem?_insertAt_self _ _ _ hk
  · intro i hi
    rw [hseg]
    exact getElem?_insertAt_of_lt _ _ _ i hi hk
  · intro i hi
    rw [hseg]
    exact getElem?_insertAt_of_ge _ _ _ i hi hk
  · rw [addColumn, hseg2, Nat.min_self]
    exact getElem?_insertAt_self _ _ _ (Nat.le_refl _)
  · rw [addColumn, hseg2, Nat.min_self]
    simp [insertAt, getColumnCount]

/-- The member `setSortColumn` leaves the window renderer as it is. -/
theorem setSortColumn_windowRenderer (h : ListHeader) (column : Nat) :
    (setSortColumn h column).header.d_windowRenderer = h.d_windowRenderer := by
  unfold setSortColumn
  split
  · rfl
  · split <;> rfl

/-- The sort segment block of `removeColumn` leaves the segment list and the
window renderer as they are. -/
theorem resetSortSegment_segments (h : ListHeader) (seg : Nat) :
    (resetSortSegment h seg).d_segments = h.d_segments ∧
    (resetSortSegment h seg).d_windowRenderer = h.d_windowRenderer := by
  unfold resetSortSegment
  split
  · split
    · exact ⟨setSortColumn_segments _ 0, setSortColumn_windowRenderer _ 0⟩
    · exact ⟨rfl, rfl⟩
  · exact ⟨rfl, rfl⟩

/-- With a window renderer, `removeColumn` for a column in range succeeds and
erases the element at that index from the segment list. -/
theorem removeColumn_segments (h : ListHeader) (column : Nat)
    (hc : column < getColumnCount h) (hwr : h.d_windowRenderer = true) :
    (removeColumn h column).ret = Except.ok () ∧
    (removeColumn h column).header.d_segments = h.d_segments.eraseIdx column := by
  have hge : ¬ column ≥ getColumnCount h := by omega
  obtain ⟨h2a, h2b⟩ := resetSortSegment_segments
    { h with d_segments := h.d_segments.eraseIdx column } (segmentAt h column)
  simp only [removeColumn, hge, if_false]
  generalize resetSortSegment { h with d_segments := h.d_segments.eraseIdx column }
    (segmentAt h column) = g at h2a h2b ⊢
  dsimp only at h2a h2b
  simp [h2a, h2b, hwr, layoutSegments]

/-- C15. With a window renderer attached and pairwise distinct segments,
`removeColumn` for a column below the column count `n` succeeds and leaves
`n - 1` columns; the removed segment is no longer in the segment list; the
segments previously below `column` keep their index and the segments
previously above it move down by exactly one. -/
theorem removeColumn_placement (h : ListHeader) (column : Nat)
    (hc : column < getColumnCount h) (hwr : h.d_windowRenderer = true)
    (hnd : h.d_segments.Nodup) :
    (removeColumn h column).ret = Except.ok () ∧
    getColumnCount (removeColumn h column).header = getColumnCount h - 1 ∧
    segmentAt h column ∉ (removeColumn h column).header.d_segments ∧
    (∀ i : Nat, i < column →
      (removeColumn h column).header.d_segments[i]? = h.d_segments[i]?) ∧
    (∀ i : Nat, column ≤ i →
      (removeColumn h column).header.d_segments[i]? = h.d_segments[i + 1]?) := by
  obtain ⟨hret, hseg⟩ := removeColumn_segments h column hc hwr
  refine ⟨hret, ?_, ?_, ?_, ?_⟩
  · rw [getColumnCount, hseg, List.length_eraseIdx, if_pos (show column < h.d_segments.length from hc)]
    rfl
  · rw [hseg, List.mem_eraseIdx_iff_getElem?]
    rintro ⟨i, hne, hi⟩
    exact hne (nodup_index_unique _ hnd i column _ hi (getElem?_segmentAt h column hc))
  · intro i hi
    rw [hseg]
    exact List.getElem?_eraseIdx_of_lt _ _ _ hi
  · intro i hi
    rw [hseg]
    exact List.getElem?_eraseIdx_of_ge _ _ _ hi


/-- A list splits around the element at an index in range. -/
theorem split_at_index (l : List Nat) (c : Nat) (hc : c < l.length) :
    l = l.take c ++ l.getD c 0 :: l.drop (c + 1) := by
  have h1 : l.getD c 0 = l[c] := by
    simp [List.getD_eq_getElem?_getD, List.getElem?_eq_getElem hc]
  rw [h1, ← List.drop_eq_getElem_cons hc, List.take_append_drop]

/-- The member `moveColumn` for a column in range succeeds, erases the segment
at `column` and inserts it at the clamped position. -/
theorem moveColumn_segments (h : ListHeader) (column position : Nat)
    (hc : column < getColumnCount h) :
    (moveColumn h column position).ret = Except.ok () ∧
    (moveColumn h column position).header.d_segments
      = insertAt (min position (getColumnCount h - 1)) (segmentAt h column)
          (h.d_segments.eraseIdx column) := by
  have hge : ¬ column ≥ getColumnCount h := by omega
  have hmin : (if position ≥ getColumnCount h then getColumnCount h - 1 else position)
      = min position (getColumnCount h - 1) := by
    split
    · omega
    · omega
  simp only [moveColumn, hge, if_false, hmin, layoutSegments, and_self]

/-- Erasing the element at an index in range and putting it in front gives a
permutation of the list. -/
theorem eraseIdx_perm (l : List Nat) (c : Nat) (hc : c < l.length) :
    List.Perm l (l.getD c 0 :: l.eraseIdx c) := by
  rw [List.eraseIdx_eq_take_drop_succ]
  conv_lhs => rw [split_at_index l c hc]
  exact List.perm_middle

/-- The segment list after `moveColumn` for a column in range is a permutation
of the list before. -/
theorem moveColumn_perm (h : ListHeader) (column position : Nat)
    (hc : column < getColumnCount h) :
    List.Perm (moveColumn h column position).header.d_segments h.d_segments := by
  rw [(moveColumn_segments h column position hc).2]
  have h1 : List.Perm
      (insertAt (min position (getColumnCount h - 1)) (segmentAt h column)
        (h.d_segments.eraseIdx column))
      (segmentAt h column :: h.d_segments.eraseIdx column) := by
    unfold insertAt
    refine List.perm_middle.trans ?_
    rw [List.take_append_drop]
  exact h1.trans (eraseIdx_perm h.d_segments column hc).symm

/-- C16. For a column below the column count `n` and every position,
`moveColumn` succeeds; afterwards the column count is still `n`, the segment
formerly at `column` is at index `min position (n - 1)`, the segment list is a
permutation of the old one, and the other segments keep their relative order;
`moveColumn(c, c)` leaves the order unchanged. -/
theorem moveColumn_placement (h : ListHeader) (column position : Nat)
    (hc : column < getColumnCount h) :
    (moveColumn h column position).ret = Except.ok () ∧
    getColumnCount (moveColumn h column position).header = getColumnCount h ∧
    (moveColumn h column position).header.d_segments[min position (getColumnCount h - 1)]?
      = some (segmentAt h column) ∧
    List.Perm (moveColumn h column position).header.d_segments h.d_segments ∧
    (moveColumn h column position).header.d_segments.filter (fun p => p ≠ segmentAt h column)
      = h.d_segments.filter (fun p => p ≠ segmentAt h column) ∧
    (moveColumn h column column).header.d_segments = h.d_segments := by
  obtain ⟨hret, hseg⟩ := moveColumn_segments h column position hc
  obtain ⟨_, hseg2⟩ := moveColumn_segments h column column hc
  have hcl : column < h.d_segments.length := hc
  have hlen : (h.d_segments.eraseIdx column).length = h.d_segments.length - 1 := by
    rw [List.length_eraseIdx, if_pos hcl]
  have hk : min position (getColumnCount h - 1) ≤ (h.d_segments.eraseIdx column).length := by
    rw [hlen]
    exact Nat.min_le_right _ _
  have hsplit := split_at_index h.d_segments column hcl
  have herase : h.d_segments.eraseIdx column
      = h.d_segments.take column ++ h.d_segments.drop (column + 1) :=
    List.eraseIdx_eq_take_drop_succ _ _
  refine ⟨hret, ?_, ?_, ?_, ?_, ?_⟩
  · rw [getColumnCount, hseg, length_insertAt, hlen]
    show h.d_segments.length - 1 + 1 = h.d_segments.length
    omega
  · rw [hseg]
    exact getElem?_insertAt_self _ _ _ hk
  · exact moveColumn_perm h column position hc
  · rw [hseg]
    have h1 : (insertAt (min position (getColumnCount h - 1)) (segmentAt h column)
          (h.d_segments.eraseIdx column)).filter (fun p => p ≠ segmentAt h column)
        = (h.d_segments.eraseIdx column).filter (fun p => p ≠ segmentAt h column) := by
      unfold insertAt
      rw [List.filter_append, List.filter_cons_of_neg (by simp), ← List.filter_append,
        List.take_append_drop]
    have h2 : h.d_segments.filter (fun p => p ≠ segmentAt h column)
        = (h.d_segments.eraseIdx column).filter (fun p => p ≠ segmentAt h column) := by
      rw [herase]
      conv_lhs => rw [hsplit]
      rw [List.filter_append, List.filter_cons_of_neg (by simp [segmentAt]),
        ← List.filter_append]
    rw [h1, h2]
  · rw [hseg2]
    have hm : min column (getColumnCount h - 1) = column := by
      apply Nat.min_eq_left
      omega
    rw [hm, insertAt, herase]
    have htl : (h.d_segments.take column).length = column := by
      simp [List.length_take]
      omega
    rw [List.take_left' htl, List.drop_left' htl]
    exact hsplit.symm

/-- The column loop finds `i + c` exactly when `c` is the lowest index in the
list whose segment passes the test. -/
theorem columnSearch_eq_some_iff (test : Nat → Bool) (l : List Nat) (i j : Nat) :
    columnSearch test l i = some j ↔
      ∃ c p, j = i + c ∧ l[c]? = some p ∧ test p = true ∧
        ∀ k q, k < c → l[k]? = some q → test q = false := by
  induction l generalizing i with
  | nil => simp [columnSearch]
  | cons a rest ih =>
    simp only [columnSearch]
    by_cases ha : test a = true
    · simp only [ha, if_true, Option.some.injEq]
      constructor
      · intro hj
        refine ⟨0, a, by omega, by simp, ha, ?_⟩
        intro k q hk
        omega
      · rintro ⟨c, p, hj, _, _, hlow⟩
        cases c with
        | zero => omega
        | succ c =>
          have := hlow 0 a (by omega) (by simp)
          rw [ha] at this
          cases this
    · simp only [ha, if_false, Bool.false_eq_true, ih]
      constructor
      · rintro ⟨c, p, hj, hp, htp, hlow⟩
        refine ⟨c + 1, p, by omega, by simpa using hp, htp, ?_⟩
        intro k q hk hq
        cases k with
        | zero =>
          simp at hq
          subst hq
          simpa using ha
        | succ k => exact hlow k q (by omega) (by simpa using hq)
      · rintro ⟨c, p, hj, hp, htp, hlow⟩
        cases c with
        | zero =>
          simp at hp
          subst hp
          exact absurd htp ha
        | succ c =>
          refine ⟨c, p, by omega, by simpa using hp, htp, ?_⟩
          intro k q hk hq
          exact hlow (k + 1) q (by omega) (by simpa using hq)

/-- The column loop finds nothing exactly when no segment passes the test. -/
theorem columnSearch_eq_none_iff (test : Nat → Bool) (l : List Nat) (i : Nat) :
    columnSearch test l i = none ↔ ∀ p ∈ l, test p = false := by
  induction l generalizing i with
  | nil => simp [columnSearch]
  | cons a rest ih =>
    simp only [columnSearch]
    by_cases ha : test a = true
    · simp [ha]
    · simp [ha, ih]

/-- The segment loop returns the segment at the column that the column loop
returns. -/
theorem segmentSearch_eq (test : Nat → Bool) (l : List Nat) (i : Nat) :
    segmentSearch test l = (columnSearch test l i).map (fun c => l.getD (c - i) 0) := by
  induction l generalizing i with
  | nil => simp [segmentSearch, columnSearch]
  | cons a rest ih =>
    simp only [segmentSearch, columnSearch]
    by_cases ha : test a = true
    · simp [ha]
    · simp only [ha, if_false, Bool.false_eq_true]
      rw [ih (i + 1)]
      cases hcs : columnSearch test rest (i + 1) with
      | none => rfl
      | some c =>
        obtain ⟨k, _, hk, _⟩ := (columnSearch_eq_some_iff test rest (i + 1) c).mp hcs
        have h1 : c - i = (c - (i + 1)) + 1 := by omega
        simp [h1]


/-- A lookup by key returns column `c` exactly when `c` is the lowest column
whose segment passes the test. -/
theorem lookup_ok_iff (test : Nat → Bool) (l : List Nat) (c : Nat) :
    (match columnSearch test l 0 with
      | some i => (Except.ok i : Except NodeError Nat)
      | none => Except.error NodeError.InvalidRequest) = Except.ok c ↔
    ∃ p, l[c]? = some p ∧ test p = true ∧ ∀ k q, k < c → l[k]? = some q → test q = false := by
  cases hcs : columnSearch test l 0 with
  | none =>
    simp only [reduceCtorEq, false_iff, not_exists, not_and]
    intro p hp htp
    have hmem : p ∈ l := List.getElem?_mem hp
    have := (columnSearch_eq_none_iff test l 0).mp hcs p hmem
    rw [htp] at this
    cases this
  | some i =>
    simp only [Except.ok.injEq]
    constructor
    · intro hic
      subst hic
      obtain ⟨c, p, hj, hp, htp, hlow⟩ := (columnSearch_eq_some_iff test l 0 i).mp hcs
      have hci : i = c := by omega
      subst hci
      exact ⟨p, hp, htp, hlow⟩
    · rintro ⟨p, hp, htp, hlow⟩
      have h2 := (columnSearch_eq_some_iff test l 0 c).mpr ⟨c, p, by omega, hp, htp, hlow⟩
      rw [hcs] at h2
      exact Option.some.inj h2

/-- A lookup by key throws exactly when no segment passes the test. -/
theorem lookup_error_iff (test : Nat → Bool) (l : List Nat) :
    (match columnSearch test l 0 with
      | some i => (Except.ok i : Except NodeError Nat)
      | none => Except.error NodeError.InvalidRequest)
        = Except.error NodeError.InvalidRequest ↔
    ∀ p ∈ l, test p = false := by
  cases hcs : columnSearch test l 0 with
  | none =>
    simp only [true_iff]
    exact (columnSearch_eq_none_iff test l 0).mp hcs
  | some i =>
    simp only [reduceCtorEq, false_iff]
    intro hall
    have := (columnSearch_eq_none_iff test l 0).mpr hall
    rw [hcs] at this
    cases this

/-- C18. Each of `getColumnFromSegment`, `getColumnFromID` and
`getColumnWithText` returns the lowest column index whose segment is the given
one / has the given ID / has the given text, and throws
`InvalidRequestException` exactly when no attached segment matches;
`getSegmentFromID` returns what `getSegmentFromColumn` returns for the column
of `getColumnFromID`, and throws in exactly the same cases. -/
theorem lookups_by_key (h : ListHeader) :
    (∀ s c : Nat, getColumnFromSegment h s = Except.ok c ↔
      (h.d_segments[c]? = some s ∧ ∀ k : Nat, k < c → h.d_segments[k]? ≠ some s)) ∧
    (∀ s : Nat, getColumnFromSegment h s = Except.error NodeError.InvalidRequest ↔
      s ∉ h.d_segments) ∧
    (∀ id c : Nat, getColumnFromID h id = Except.ok c ↔
      ∃ p, h.d_segments[c]? = some p ∧ (h.segmentStore p).d_ID = id ∧
        ∀ k q : Nat, k < c → h.d_segments[k]? = some q → (h.segmentStore q).d_ID ≠ id) ∧
    (∀ id : Nat, getColumnFromID h id = Except.error NodeError.InvalidRequest ↔
      ∀ p ∈ h.d_segments, (h.segmentStore p).d_ID ≠ id) ∧
    (∀ (text : String) (c : Nat), getColumnWithText h text = Except.ok c ↔
      ∃ p, h.d_segments[c]? = some p ∧ (h.segmentStore p).d_text = text ∧
        ∀ k q : Nat, k < c → h.d_segments[k]? = some q → (h.segmentStore q).d_text ≠ text) ∧
    (∀ text : String, getColumnWithText h text = Except.error NodeError.InvalidRequest ↔
      ∀ p ∈ h.d_segments, (h.segmentStore p).d_text ≠ text) ∧
    (∀ id : Nat, getSegmentFromID h id =
      match getColumnFromID h id with
      | Except.ok c => getSegmentFromColumn h c
      | Except.error e => Except.error e) := by
  refine ⟨?_, ?_, ?_, ?_, ?_, ?_, ?_⟩
  · intro s c
    rw [getColumnFromSegment, lookup_ok_iff]
    constructor
    · rintro ⟨p, hp, htp, hlow⟩
      have hps : p = s := by simpa using htp
      subst hps
      refine ⟨hp, ?_⟩
      intro k hk hks
      simpa using hlow k p hk hks
    · rintro ⟨hs, hlow⟩
      refine ⟨s, hs, by simp, ?_⟩
      intro k q hk hq
      have : q ≠ s := by
        rintro rfl
        exact hlow k hk hq
      simpa using this
  · intro s
    rw [getColumnFromSegment, lookup_error_iff]
    constructor
    · intro hall hmem
      simpa using hall s hmem
    · intro hs p hp
      have : p ≠ s := by
        rintro rfl
        exact hs hp
      simpa using this
  · intro id c
    rw [getColumnFromID, lookup_ok_iff]
    simp
  · intro id
    rw [getColumnFromID, lookup_error_iff]
    simp
  · intro text c
    rw [getColumnWithText, lookup_ok_iff]
    simp
  · intro text
    rw [getColumnWithText, lookup_error_iff]
    simp
  · intro id
    rw [getSegmentFromID, getColumnFromID,
      segmentSearch_eq (fun p => (h.segmentStore p).d_ID == id) h.d_segments 0]
    cases hcs : columnSearch (fun p => (h.segmentStore p).d_ID == id) h.d_segments 0 with
    | none => rfl
    | some c =>
      obtain ⟨k, p, hk, hp, _, _⟩ := (columnSearch_eq_some_iff _ _ 0 c).mp hcs
      have hkc : c = k := by omega
      subst hkc
      have hlt : c < h.d_segments.length := by
        rcases Nat.lt_or_ge c h.d_segments.length with hl | hl
        · exact hl
        · rw [List.getElem?_eq_none hl] at hp
          cases hp
      have hge : ¬ c ≥ getColumnCount h := by
        simp only [getColumnCount]
        omega
      simp [getSegmentFromColumn, hge, segmentAt]

/-- C17. In a header whose segments are pairwise distinct, the column of the
segment at column `c` is `c`, for every `c` below the column count; and for
every attached segment `s`, the segment at the column of `s` is `s`. -/
theorem segment_column_roundtrip (h : ListHeader) (hnd : h.d_segments.Nodup) :
    (∀ c : Nat, c < getColumnCount h →
      ∃ s, getSegmentFromColumn h c = Except.ok s ∧ getColumnFromSegment h s = Except.ok c) ∧
    (∀ s : Nat, s ∈ h.d_segments →
      ∃ c, getColumnFromSegment h s = Except.ok c ∧ getSegmentFromColumn h c = Except.ok s) := by
  constructor
  · intro c hc
    have hge : ¬ c ≥ getColumnCount h := by omega
    refine ⟨segmentAt h c, by simp [getSegmentFromColumn, hge], ?_⟩
    rw [getColumnFromSegment, lookup_ok_iff]
    refine ⟨segmentAt h c, getElem?_segmentAt h c hc, by simp, ?_⟩
    intro k q hk hq
    have hne : q ≠ segmentAt h c := by
      rintro rfl
      have := nodup_index_unique _ hnd k c _ hq (getElem?_segmentAt h c hc)
      omega
    simpa using hne
  · intro s hs
    cases hcol : getColumnFromSegment h s with
    | error e =>
      cases e
      have hlist := (lookup_error_iff (fun p => p == s) h.d_segments).mp hcol
      have := hlist s hs
      simp at this
    | ok c =>
      refine ⟨c, rfl, ?_⟩
      obtain ⟨p, hp, htp, _⟩ := (lookup_ok_iff (fun p => p == s) h.d_segments c).mp hcol
      have hps : p = s := by simpa using htp
      subst hps
      have hlt : c < h.d_segments.length := by
        rcases Nat.lt_or_ge c h.d_segments.length with hl | hl
        · exact hl
        · rw [List.getElem?_eq_none hl] at hp
          cases hp
      have hge : ¬ c ≥ getColumnCount h := by
        simp only [getColumnCount]
        omega
      simp [getSegmentFromColumn, hge, segmentAt_eq h c p hp]


/-- The accumulating loop over the first `c` segments computes the sum of the
pixel widths of the first `c` columns, in column order. -/
theorem foldl_take_widthSum (rnd : ℚ → ℚ) (h : ListHeader) (c : Nat)
    (hc : c ≤ h.d_segments.length) :
    (h.d_segments.take c).foldl
        (fun offset p => floatAdd rnd offset (h.segmentStore p).d_pixelWidth) 0
      = widthSum rnd h c := by
  induction c with
  | zero => simp [widthSum]
  | succ c ih =>
    have hlt : c < h.d_segments.length := by omega
    have hget : h.d_segments[c]? = some (segmentAt h c) := by
      rw [List.getElem?_eq_getElem hlt]
      simp [segmentAt, List.getD_eq_getElem?_getD, List.getElem?_eq_getElem hlt]
    rw [List.take_succ, List.foldl_append, ih (by omega), hget]
    simp [widthSum]

/-- The loop of `getPixelOffsetToSegment` returns what the accumulating loop
has computed when it reaches the first occurrence of the segment. -/
theorem offsetSearch_first (rnd : ℚ → ℚ) (h : ListHeader) (s : Nat) (l : List Nat) (a : ℚ)
    (c : Nat) (hc : l[c]? = some s) (hlow : ∀ k : Nat, k < c → l[k]? ≠ some s) :
    offsetSearch rnd h s l a
      = some ((l.take c).foldl
          (fun offset p => floatAdd rnd offset (h.segmentStore p).d_pixelWidth) a) := by
  induction l generalizing a c with
  | nil => simp at hc
  | cons p rest ih =>
    cases c with
    | zero =>
      have hps : p = s := by simpa using hc
      simp [offsetSearch, hps]
    | succ c =>
      have hne : p ≠ s := by
        intro hps
        exact hlow 0 (by omega) (by simp [hps])
      have hrec := ih (floatAdd rnd a (h.segmentStore p).d_pixelWidth) c (by simpa using hc)
        (fun k hk hks => hlow (k + 1) (by omega) (by simpa using hks))
      simp only [offsetSearch, hne, if_false, hrec, List.take_succ_cons, List.foldl_cons]

/-- C19. Whatever the rounding of `float` addition: in a header whose segments
are pairwise distinct, for a segment `s` attached at column `c`,
`getPixelOffsetToSegment(s)` and `getPixelOffsetToColumn(c)` both return the
sum, in column order starting from 0, of the pixel widths of the segments in
the columns below `c`; the offset to column 0 is 0; and
`getTotalSegmentsPixelExtent` is the same sum taken over all columns.  The sum
is the one that `float` addition gives column after column; no reordering of
the additions is used. -/
theorem pixel_offsets (rnd : ℚ → ℚ) (h : ListHeader) (s c : Nat) (hnd : h.d_segments.Nodup)
    (hs : h.d_segments[c]? = some s) :
    getPixelOffsetToSegment rnd h s = Except.ok (widthSum rnd h c) ∧
    getPixelOffsetToColumn rnd h c = Except.ok (widthSum rnd h c) ∧
    getPixelOffsetToColumn rnd h 0 = Except.ok 0 ∧
    getTotalSegmentsPixelExtent rnd h = widthSum rnd h (getColumnCount h) := by
  have hlt : c < h.d_segments.length := by
    rcases Nat.lt_or_ge c h.d_segments.length with hl | hl
    · exact hl
    · rw [List.getElem?_eq_none hl] at hs
      cases hs
  have hge : ¬ c ≥ getColumnCount h := by
    simp only [getColumnCount]
    omega
  have hge0 : ¬ 0 ≥ getColumnCount h := by
    simp only [getColumnCount]
    omega
  refine ⟨?_, ?_, ?_, ?_⟩
  · have hlow : ∀ k : Nat, k < c → h.d_segments[k]? ≠ some s := by
      intro k hk hks
      have := nodup_index_unique _ hnd k c s hks hs
      omega
    rw [getPixelOffsetToSegment, offsetSearch_first rnd h s h.d_segments 0 c hs hlow,
      foldl_take_widthSum rnd h c (by omega)]
  · rw [getPixelOffsetToColumn, if_neg hge, foldl_take_widthSum rnd h c (by omega)]
  · rw [getPixelOffsetToColumn, if_neg hge0]
    simp
  · have := foldl_take_widthSum rnd h h.d_segments.length (le_refl _)
    rw [List.take_length] at this
    rw [getTotalSegmentsPixelExtent, this, getColumnCount]

/-- In a header whose segments are pairwise distinct, a column in range is the
sort column exactly when the sort segment is the segment at that column. -/
theorem getSortColumn_eq_iff (h : ListHeader) (column : Nat) (hnd : h.d_segments.Nodup)
    (hc : column < getColumnCount h) :
    getSortColumn h = Except.ok column ↔ h.d_sortSegment = some (segmentAt h column) := by
  have hat := getElem?_segmentAt h column hc
  constructor
  · intro hsc
    rw [getSortColumn, getSortSegment] at hsc
    cases hss : h.d_sortSegment with
    | none => simp [hss] at hsc
    | some p =>
      rw [hss] at hsc
      have hsc2 : getColumnFromSegment h p = Except.ok column := hsc
      rw [getColumnFromSegment, lookup_ok_iff] at hsc2
      obtain ⟨q, hq, htq, _⟩ := hsc2
      have hqp : q = p := by simpa using htq
      subst hqp
      rw [segmentAt_eq h column q hq]
  · intro hsort
    rw [getSortColumn, getSortSegment, hsort]
    show getColumnFromSegment h (segmentAt h column) = Except.ok column
    rw [getColumnFromSegment, lookup_ok_iff]
    refine ⟨segmentAt h column, hat, by simp, ?_⟩
    intro k q hk hq
    have hne : q ≠ segmentAt h column := by
      rintro rfl
      have := nodup_index_unique _ hnd k column _ hq hat
      omega
    simpa using hne

/-- C20. In a header whose segments are pairwise distinct, for a column below
the column count, `setSortColumn` succeeds; afterwards `getSortColumn` returns
that column and the sort direction of the header is unchanged.  If the column
was not the sort column, the direction of the new sort segment is the sort
direction of the header, the direction of the previous sort segment (if there
was one) is `None`, and `SortColumnChanged` is fired.  If the column already is
the sort column, the header is unchanged and no event is fired. -/
theorem setSortColumn_contract (h : ListHeader) (column : Nat)
    (hnd : h.d_segments.Nodup) (hc : column < getColumnCount h) :
    (setSortColumn h column).ret = Except.ok () ∧
    getSortColumn (setSortColumn h column).header = Except.ok column ∧
    getSortDirection (setSortColumn h column).header = getSortDirection h ∧
    (getSortColumn h ≠ Except.ok column →
      ((setSortColumn h column).header.segmentStore (segmentAt h column)).d_sortDir
        = getSortDirection h ∧
      (∀ old : Nat, h.d_sortSegment = some old →
        ((setSortColumn h column).header.segmentStore old).d_sortDir = SortDirection.None) ∧
      firedBy h (setSortColumn h column).header = [HeaderEvent.SortColumnChanged]) ∧
    (getSortColumn h = Except.ok column →
      (setSortColumn h column).header = h ∧
      firedBy h (setSortColumn h column).header = []) := by
  have hge : ¬ column ≥ getColumnCount h := by omega
  have hiff := getSortColumn_eq_iff h column hnd hc
  by_cases hsame : h.d_sortSegment = some (segmentAt h column)
  · have hr : setSortColumn h column = { header := h, ret := Except.ok () } := by
      simp [setSortColumn, hge, hsame]
    rw [hr]
    refine ⟨rfl, hiff.mpr hsame, rfl, ?_, ?_⟩
    · intro hne
      exact absurd (hiff.mpr hsame) hne
    · intro _
      exact ⟨rfl, by simp [firedBy]⟩
  · have hr : setSortColumn h column =
        { header :=
            { h with
              d_sortSegment := some (segmentAt h column)
              segmentStore :=
                setSegmentSortDirection
                  (match h.d_sortSegment with
                    | some old => setSegmentSortDirection h.segmentStore old SortDirection.None
                    | none => h.segmentStore)
                  (segmentAt h column) h.d_sortDir
              fired := h.fired ++ [HeaderEvent.SortColumnChanged] },
          ret := Except.ok () } := by
      simp [setSortColumn, hge, hsame]
    rw [hr]
    refine ⟨rfl, ?_, rfl, ?_, ?_⟩
    · refine (getSortColumn_eq_iff _ column ?_ ?_).mpr ?_
      · exact hnd
      · exact hc
      · rfl
    · intro _
      refine ⟨by simp [setSegmentSortDirection, getSortDirection], ?_, by simp [firedBy]⟩
      intro old hold
      have hne : old ≠ segmentAt h column := by
        rintro rfl
        exact hsame hold
      simp [setSegmentSortDirection, hold, Function.update_noteq hne]
    · intro hsc
      exact absurd (hiff.mp hsc) hsame


/-- C12. For a column at or above the column count, each of
`getSegmentFromColumn`, `getPixelOffsetToColumn`, `getColumnWidth`,
`setSortColumn`, `removeColumn`, `moveColumn` and `setColumnWidth` throws
`InvalidRequestException` and leaves the header (segment list, sort segment,
sort direction, segment offset and everything else) unchanged; for a column
below the column count, with a window renderer attached, none of them
throws. -/
theorem column_index_validation (h : ListHeader) (column : Nat) :
    (column ≥ getColumnCount h →
      getSegmentFromColumn h column = Except.error NodeError.InvalidRequest ∧
      (∀ rnd : ℚ → ℚ,
        getPixelOffsetToColumn rnd h column = Except.error NodeError.InvalidRequest) ∧
      getColumnWidth h column = Except.error NodeError.InvalidRequest ∧
      setSortColumn h column = ⟨h, Except.error NodeError.InvalidRequest⟩ ∧
      removeColumn h column = ⟨h, Except.error NodeError.InvalidRequest⟩ ∧
      (∀ position : Nat,
        moveColumn h column position = ⟨h, Except.error NodeError.InvalidRequest⟩) ∧
      (∀ (env : WindowSystem) (width : UDim),
        setColumnWidth env h column width = ⟨h, Except.error NodeError.InvalidRequest⟩)) ∧
    (column < getColumnCount h → h.d_windowRenderer = true →
      (∃ s, getSegmentFromColumn h column = Except.ok s) ∧
      (∀ rnd : ℚ → ℚ, ∃ offset, getPixelOffsetToColumn rnd h column = Except.ok offset) ∧
      (∃ width, getColumnWidth h column = Except.ok width) ∧
      (setSortColumn h column).ret = Except.ok () ∧
      (removeColumn h column).ret = Except.ok () ∧
      (∀ position : Nat, (moveColumn h column position).ret = Except.ok ()) ∧
      (∀ (env : WindowSystem) (width : UDim),
        (setColumnWidth env h column width).ret = Except.ok ())) := by
  constructor
  · intro hge
    refine ⟨by simp [getSegmentFromColumn, hge],
      fun rnd => by simp [getPixelOffsetToColumn, hge],
      by simp [getColumnWidth, hge], by simp [setSortColumn, hge],
      by simp [removeColumn, hge], ?_, ?_⟩
    · intro position
      simp [moveColumn, hge]
    · intro env width
      simp [setColumnWidth, hge]
  · intro hlt hwr
    have hge : ¬ column ≥ getColumnCount h := by omega
    refine ⟨⟨_, by rw [getSegmentFromColumn, if_neg hge]⟩,
      fun rnd => ⟨_, by rw [getPixelOffsetToColumn, if_neg hge]⟩,
      ⟨_, by rw [getColumnWidth, if_neg hge]⟩,
      setSortColumn_ret h column hlt, (removeColumn_segments h column hlt hwr).1, ?_, ?_⟩
    · intro position
      exact (moveColumn_segments h column position hlt).1
    · intro env width
      simp only [setColumnWidth, hge, if_false]

/-- Inserting a segment gives a permutation of the list with the segment in
front. -/
theorem insertAt_perm (k x : Nat) (l : List Nat) : List.Perm (insertAt k x l) (x :: l) := by
  unfold insertAt
  refine List.perm_middle.trans ?_
  rw [List.take_append_drop]

/-- The member `setSortColumn` leaves the next unused address as it is. -/
theorem setSortColumn_nextAddress (h : ListHeader) (column : Nat) :
    (setSortColumn h column).header.nextAddress = h.nextAddress := by
  unfold setSortColumn
  split
  · rfl
  · split <;> rfl

/-- The header after `insertColumn`: without a window renderer nothing has
changed; with one, the new segment is in the list and the next address is
used. -/
theorem insertColumn_header (env : WindowSystem) (h : ListHeader) (text : String) (id : Nat)
    (width : UDim) (position : Nat) :
    (h.d_windowRenderer = false → (insertColumn env h text id width position).header = h) ∧
    (h.d_windowRenderer = true →
      (insertColumn env h text id width position).header.d_segments
        = insertAt (min position (getColumnCount h)) h.nextAddress h.d_segments ∧
      (insertColumn env h text id width position).header.nextAddress = h.nextAddress + 1) := by
  constructor
  · intro hwr
    simp [insertColumn, createInitialisedSegment, hwr]
  · intro hwr
    refine ⟨(insertColumn_segments env h text id width position hwr).2, ?_⟩
    simp only [insertColumn, createInitialisedSegment, hwr, if_true]
    cases hs : h.d_sortSegment with
    | some q => simp [layoutSegments, hs]
    | none =>
      simp only [layoutSegments, hs]
      rw [setSortColumn_nextAddress]

/-- The header after `removeColumn` for a column in range, with or without a
window renderer: the element at the index is erased, the next unused address
is as before. -/
theorem removeColumn_header (h : ListHeader) (column : Nat) (hc : column < getColumnCount h) :
    (removeColumn h column).header.d_segments = h.d_segments.eraseIdx column ∧
    (removeColumn h column).header.nextAddress = h.nextAddress := by
  have hge : ¬ column ≥ getColumnCount h := by omega
  have h2 : ∀ g : ListHeader, ∀ seg : Nat,
      (resetSortSegment g seg).d_segments = g.d_segments ∧
      (resetSortSegment g seg).nextAddress = g.nextAddress := by
    intro g seg
    unfold resetSortSegment
    split
    · split
      · exact ⟨setSortColumn_segments _ 0, setSortColumn_nextAddress _ 0⟩
      · exact ⟨rfl, rfl⟩
    · exact ⟨rfl, rfl⟩
  obtain ⟨h2a, h2b⟩ := h2 { h with d_segments := h.d_segments.eraseIdx column }
    (segmentAt h column)
  simp only [removeColumn, hge, if_false]
  generalize resetSortSegment { h with d_segments := h.d_segments.eraseIdx column }
    (segmentAt h column) = g at h2a h2b ⊢
  dsimp only at h2a h2b
  cases hwr : g.d_windowRenderer <;> simp [h2a, h2b, hwr, layoutSegments]

/-- Every call keeps the segments pairwise distinct and their addresses in
use. -/
theorem applyOp_wellFormed (env : WindowSystem) (h : ListHeader) (op : HeaderOp)
    (hw : WellFormed h) : WellFormed (applyOp env h op) := by
  have hins : ∀ (text : String) (id : Nat) (width : UDim) (position : Nat),
      WellFormed (insertColumn env h text id width position).header := by
    intro text id width position
    obtain ⟨hno, hyes⟩ := insertColumn_header env h text id width position
    cases hwr : h.d_windowRenderer with
    | false =>
      rw [hno hwr]
      exact hw
    | true =>
      obtain ⟨hseg, hnext⟩ := hyes hwr
      have hfresh : h.nextAddress ∉ h.d_segments := by
        intro hmem
        have := hw.2 _ hmem
        omega
      have hperm := insertAt_perm (min position (getColumnCount h)) h.nextAddress h.d_segments
      constructor
      · rw [hseg, hperm.nodup_iff]
        exact List.nodup_cons.mpr ⟨hfresh, hw.1⟩
      · intro p hp
        rw [hseg, hperm.mem_iff] at hp
        rw [hnext]
        rcases List.mem_cons.mp hp with rfl | hp
        · omega
        · have := hw.2 p hp
          omega
  cases op with
  | insertColumn text id width position => exact hins text id width position
  | addColumn text id width => exact hins text id width (getColumnCount h)
  | removeColumn column =>
    show WellFormed (removeColumn h column).header
    rcases Nat.lt_or_ge column (getColumnCount h) with hc | hc
    · obtain ⟨hseg, hnext⟩ := removeColumn_header h column hc
      constructor
      · rw [hseg]
        exact hw.1.eraseIdx column
      · intro p hp
        rw [hseg] at hp
        rw [hnext]
        exact hw.2 p (List.mem_of_mem_eraseIdx hp)
    · have : removeColumn h column = ⟨h, Except.error NodeError.InvalidRequest⟩ := by
        simp [removeColumn, hc]
      rw [this]
      exact hw
  | moveColumn column position =>
    show WellFormed (moveColumn h column position).header
    rcases Nat.lt_or_ge column (getColumnCount h) with hc | hc
    · have hperm := moveColumn_perm h column position hc
      have hge : ¬ column ≥ getColumnCount h := by omega
      have hnext : (moveColumn h column position).header.nextAddress = h.nextAddress := by
        simp [moveColumn, hge, layoutSegments]
      constructor
      · exact hperm.nodup_iff.mpr hw.1
      · intro p hp
        rw [hnext]
        exact hw.2 p (hperm.mem_iff.mp hp)
    · have : moveColumn h column position = ⟨h, Except.error NodeError.InvalidRequest⟩ := by
        simp [moveColumn, hc]
      rw [this]
      exact hw
  | setSortColumn column =>
    show WellFormed (setSortColumn h column).header
    constructor
    · rw [setSortColumn_segments]
      exact hw.1
    · rw [setSortColumn_segments, setSortColumn_nextAddress]
      exact hw.2
  | setColumnWidth column width =>
    show WellFormed (setColumnWidth env h column width).header
    rcases Nat.lt_or_ge column (getColumnCount h) with hc | hc
    · have hge : ¬ column ≥ getColumnCount h := by omega
      have hseg : (setColumnWidth env h column width).header.d_segments = h.d_segments := by
        simp [setColumnWidth, hge, layoutSegments]
      have hnext : (setColumnWidth env h column width).header.nextAddress
          = h.nextAddress := by
        simp [setColumnWidth, hge, layoutSegments]
      constructor
      · rw [hseg]
        exact hw.1
      · rw [hseg, hnext]
        exact hw.2
    · have : setColumnWidth env h column width
          = ⟨h, Except.error NodeError.InvalidRequest⟩ := by
        simp [setColumnWidth, hc]
      rw [this]
      exact hw

/-- In every header reached from a newly constructed one by any sequence of
calls, the segments are pairwise distinct. -/
theorem runOps_wellFormed (env : WindowSystem) (windowRenderer : Bool) (pixelSize : Sizef)
    (store : Nat → ListHeaderSegment) (nextAddress : Nat) (ops : List HeaderOp) :
    WellFormed (runOps env (construct windowRenderer pixelSize store nextAddress) ops) := by
  have hgen : ∀ (ops : List HeaderOp) (h : ListHeader), WellFormed h →
      WellFormed (runOps env h ops) := by
    intro ops
    induction ops with
    | nil =>
      intro h hw
      exact hw
    | cons op rest ih =>
      intro h hw
      simp only [runOps, List.foldl_cons]
      exact ih (applyOp env h op) (applyOp_wellFormed env h op hw)
  apply hgen
  constructor
  · simp [construct]
  · intro p hp
    simp [construct] at hp

/-- The example header has the three segments 0, 1, 2 in column order. -/
theorem sampleHeader_segments : sampleHeader.d_segments = [0, 1, 2] := by
  rfl

/-- C14 on the example header: inserting at position 7 of 3 columns puts the
new segment, number 3, at index 3. -/
theorem insertColumn_placement_witness :
    (insertColumn sampleSystem sampleHeader "D" 13 ⟨0, 80⟩ 7).ret = Except.ok () ∧
    (insertColumn sampleSystem sampleHeader "D" 13 ⟨0, 80⟩ 7).header.d_segments[3]?
      = some 3 :=
  ⟨(insertColumn_placement sampleSystem sampleHeader "D" 13 ⟨0, 80⟩ 7 rfl).1,
    (insertColumn_placement sampleSystem sampleHeader "D" 13 ⟨0, 80⟩ 7 rfl).2.2.1⟩

/-- C15 on the example header: removing column 1 leaves two columns, without
the segment 1. -/
theorem removeColumn_placement_witness :
    (removeColumn sampleHeader 1).ret = Except.ok () ∧
    getColumnCount (removeColumn sampleHeader 1).header = 2 ∧
    1 ∉ (removeColumn sampleHeader 1).header.d_segments :=
  ⟨(removeColumn_placement sampleHeader 1 (by decide) rfl (by decide)).1,
    (removeColumn_placement sampleHeader 1 (by decide) rfl (by decide)).2.1,
    (removeColumn_placement sampleHeader 1 (by decide) rfl (by decide)).2.2.1⟩

/-- C16 on the example header: moving column 0 to position 9 puts its segment
at index 2. -/
theorem moveColumn_placement_witness :
    (moveColumn sampleHeader 0 9).ret = Except.ok () ∧
    (moveColumn sampleHeader 0 9).header.d_segments[2]? = some 0 :=
  ⟨(moveColumn_placement sampleHeader 0 9 (by decide)).1,
    (moveColumn_placement sampleHeader 0 9 (by decide)).2.2.1⟩

/-- C17 on the example header: column 2 holds segment 2, whose column is 2. -/
theorem segment_column_roundtrip_witness :
    ∃ s, getSegmentFromColumn sampleHeader 2 = Except.ok s ∧
      getColumnFromSegment sampleHeader s = Except.ok 2 :=
  (segment_column_roundtrip sampleHeader (by decide)).1 2 (by decide)

/-- The `float` sum, unfolded. -/
theorem floatAdd_def (rnd : ℚ → ℚ) (a b : ℚ) : floatAdd rnd a b = rnd (a + b) := rfl

/-- The total pixel extent of a header with three columns. -/
theorem extent_of_three (rnd : ℚ → ℚ) (h : ListHeader) (a b c : Nat)
    (hseg : h.d_segments = [a, b, c]) :
    getTotalSegmentsPixelExtent rnd h
      = floatAdd rnd
          (floatAdd rnd (floatAdd rnd 0 (h.segmentStore a).d_pixelWidth)
            (h.segmentStore b).d_pixelWidth)
          (h.segmentStore c).d_pixelWidth := by
  unfold getTotalSegmentsPixelExtent
  rw [hseg]
  rfl

/-- The total pixel extent of the header with columns of 16777216, 1 and 1
pixels in binary32 arithmetic: every partial sum rounds to 16777216. -/
theorem wideHeader_extent : getTotalSegmentsPixelExtent binary32 wideHeader = 16777216 := by
  have hw0 : (wideHeader.segmentStore 0).d_pixelWidth = 16777216 := rfl
  have hw1 : (wideHeader.segmentStore 1).d_pixelWidth = 1 := rfl
  have hw2 : (wideHeader.segmentStore 2).d_pixelWidth = 1 := rfl
  have h1 : floatAdd binary32 0 16777216 = 16777216 := by
    rw [floatAdd_def, zero_add]
    exact binary32_two_pow_24
  have h2 : floatAdd binary32 16777216 1 = 16777216 := by
    have h : (16777216 : ℚ) + 1 = 16777217 := by norm_num
    rw [floatAdd_def, h]
    exact binary32_inexact
  rw [extent_of_three binary32 wideHeader 0 1 2 rfl, hw0, hw1, hw2, h1, h2, h2]

/-- C19 in binary32 arithmetic.  On the example header the offset to segment 2,
in column 2, is the sum of the widths of columns 0 and 1.  On the header with
columns of 16777216, 1 and 1 pixels the total extent is the left to right
`float` sum, which is 16777216 and not the exact sum 16777218. -/
theorem pixel_offsets_witness :
    getPixelOffsetToSegment binary32 sampleHeader 2
      = Except.ok (widthSum binary32 sampleHeader 2) ∧
    getPixelOffsetToColumn binary32 sampleHeader 2
      = Except.ok (widthSum binary32 sampleHeader 2) ∧
    widthSum binary32 wideHeader (getColumnCount wideHeader) = 16777216 :=
  ⟨(pixel_offsets binary32 sampleHeader 2 2 (by decide) rfl).1,
    (pixel_offsets binary32 sampleHeader 2 2 (by decide) rfl).2.1,
    (pixel_offsets binary32 wideHeader 2 2 (by decide) rfl).2.2.2.symm.trans wideHeader_extent⟩

/-- C20 on the example header: making column 1 the sort column. -/
theorem setSortColumn_contract_witness :
    (setSortColumn sampleHeader 1).ret = Except.ok () ∧
    getSortColumn (setSortColumn sampleHeader 1).header = Except.ok 1 :=
  ⟨(setSortColumn_contract sampleHeader 1 (by decide) (by decide)).1,
    (setSortColumn_contract sampleHeader 1 (by decide) (by decide)).2.1⟩

end ListHeader

/-! ## The list widget -/

namespace ListWidget

/-- C13 at the failing input.  For an index above the item count the range
check of `setItemSelectionState` throws and leaves the widget unchanged; for
the index equal to the item count the check does not throw: the call is passed
on to `ListView::setItemSelectionState`, whatever that does.  On an empty
list, index 0 is passed on. -/
theorem setItemSelectionState_at_count
    (listViewSet : ListWidget → Nat → Bool → WidgetCall) (w : ListWidget) (state : Bool) :
    (∀ item_index : Nat, item_index > getItemCount w →
      setItemSelectionState listViewSet w item_index state
        = ⟨w, some NodeError.InvalidRequest⟩) ∧
    setItemSelectionState listViewSet w (getItemCount w) state
      = listViewSet w (getItemCount w) state ∧
    setItemSelectionState listViewSet ⟨[], []⟩ 0 state = listViewSet ⟨[], []⟩ 0 state := by
  refine ⟨?_, ?_, ?_⟩
  · intro item_index hgt
    simp [setItemSelectionState, hgt]
  · simp [setItemSelectionState]
  · simp [setItemSelectionState, getItemCount]

end ListWidget

/-! ## Single axis position members -/

namespace Node

/-- The position after `setArea_impl` that is no top / left sizing operation
is the requested position. -/
theorem getPosition_setArea_impl (alignToPixels : ℚ → ℚ) (n : Node) (base : Sizef)
    (pos : UVector2) (size : USize) (fireEvents : Bool) :
    (setArea_impl alignToPixels n base pos size false fireEvents).getPosition = pos := by
  simp [setArea_impl, getPosition, URect.getPosition, URect.ofPositionSize]

/-- C11 at the failing input.  `setYPosition(p)` requests the position
`(x, p)`, but `setXPosition(p)` requests `(p, x)`: the Y component of the new
position is the old X component, because `getYPosition` returns the X
component.  For a node at `(10, 20)`, `setXPosition(5)` moves the node to
`(5, 10)`, not `(5, 20)`. -/
theorem setXPosition_overwrites_y (alignToPixels : ℚ → ℚ) (n : Node) (base : Sizef)
    (p : UDim) :
    setYPosition alignToPixels n base p
      = setArea_impl alignToPixels n base ⟨n.getPosition.d_x, p⟩ n.d_area.getSize false true ∧
    (setYPosition alignToPixels n base p).getPosition = ⟨n.getPosition.d_x, p⟩ ∧
    setXPosition alignToPixels n base p
      = setArea_impl alignToPixels n base ⟨p, n.getPosition.d_x⟩ n.d_area.getSize false true ∧
    (setXPosition alignToPixels n base p).getPosition = ⟨p, n.getPosition.d_x⟩ ∧
    (setXPosition alignToPixels
        { created with d_area := URect.ofPositionSize ⟨⟨0, 10⟩, ⟨0, 20⟩⟩ ⟨⟨0, 100⟩, ⟨0, 50⟩⟩ }
        ⟨800, 600⟩ ⟨0, 5⟩).getPosition = ⟨⟨0, 5⟩, ⟨0, 10⟩⟩ := by
  refine ⟨rfl, ?_, rfl, ?_, ?_⟩
  · rw [setYPosition, setPosition, getPosition_setArea_impl]
    rfl
  · rw [setXPosition, setPosition, getPosition_setArea_impl]
    rfl
  · rw [setXPosition, setPosition, getPosition_setArea_impl]
    rfl

end Node


/-! ## The Y position accessor -/

namespace Node

/-- C21. For every node, `getYPosition` returns the X component of the
position, `getPosition().d_x`, which is what `getXPosition` returns; for a
node at `(10, 20)` it returns 10, not the Y component 20. -/
theorem getYPosition_returns_x (n : Node) :
    getYPosition n = n.getPosition.d_x ∧
    getYPosition n = getXPosition n ∧
    getYPosition
        { created with d_area := URect.ofPositionSize ⟨⟨0, 10⟩, ⟨0, 20⟩⟩ ⟨⟨0, 100⟩, ⟨0, 50⟩⟩ }
      = ⟨0, 10⟩ ∧
    getYPosition
        { created with d_area := URect.ofPositionSize ⟨⟨0, 10⟩, ⟨0, 20⟩⟩ ⟨⟨0, 100⟩, ⟨0, 50⟩⟩ }
      ≠ (getPosition
          { created with
            d_area := URect.ofPositionSize ⟨⟨0, 10⟩, ⟨0, 20⟩⟩ ⟨⟨0, 100⟩, ⟨0, 50⟩⟩ }).d_y := by
  refine ⟨rfl, rfl, rfl, ?_⟩
  show (⟨0, 10⟩ : UDim) ≠ ⟨0, 20⟩
  decide

end Node

/-! ## Sorting and scrolling of the list header -/

namespace ListHeader

/-- The member `setSortColumn` leaves the sort direction of the header as it
is. -/
theorem setSortColumn_sortDir (h : ListHeader) (column : Nat) :
    (setSortColumn h column).header.d_sortDir = h.d_sortDir := by
  unfold setSortColumn
  split
  · rfl
  · split <;> rfl

/-- After `setSortColumn` for a column in range the sort segment is the
segment at that column. -/
theorem setSortColumn_sortSegment (h : ListHeader) (column : Nat)
    (hc : column < getColumnCount h) :
    (setSortColumn h column).header.d_sortSegment = some (segmentAt h column) := by
  have hge : ¬ column ≥ getColumnCount h := by omega
  unfold setSortColumn
  rw [if_neg hge]
  split
  · rfl
  · rename_i hsame
    simpa using hsame

/-- The sort fields after the sort segment block of `removeColumn`, which runs
on the header `g` from which `seg` has been erased. -/
theorem resetSortSegment_sort (g : ListHeader) (seg : Nat) :
    (g.d_sortSegment = some seg → getColumnCount g > 0 →
      (resetSortSegment g seg).d_sortSegment = some (segmentAt g 0) ∧
      (resetSortSegment g seg).d_sortDir = SortDirection.None) ∧
    (g.d_sortSegment = some seg → getColumnCount g = 0 →
      (resetSortSegment g seg).d_sortSegment = none) ∧
    (g.d_sortSegment ≠ some seg →
      (resetSortSegment g seg).d_sortSegment = g.d_sortSegment ∧
      (resetSortSegment g seg).d_sortDir = g.d_sortDir) := by
  refine ⟨?_, ?_, ?_⟩
  · intro hs hn
    rw [resetSortSegment, if_pos hs, if_pos hn]
    exact ⟨setSortColumn_sortSegment _ 0 hn, setSortColumn_sortDir _ 0⟩
  · intro hs hn
    have hn2 : ¬ getColumnCount g > 0 := by omega
    rw [resetSortSegment, if_pos hs, if_neg hn2]
  · intro hs
    rw [resetSortSegment, if_neg hs]
    exact ⟨rfl, rfl⟩

/-- With a window renderer, the sort segment and sort direction after
`removeColumn` for a column in range are those left by the sort segment
block. -/
theorem removeColumn_sort (h : ListHeader) (column : Nat) (hc : column < getColumnCount h)
    (hwr : h.d_windowRenderer = true) :
    (removeColumn h column).header.d_sortSegment
      = (resetSortSegment { h with d_segments := h.d_segments.eraseIdx column }
          (segmentAt h column)).d_sortSegment ∧
    (removeColumn h column).header.d_sortDir
      = (resetSortSegment { h with d_segments := h.d_segments.eraseIdx column }
          (segmentAt h column)).d_sortDir := by
  have hge : ¬ column ≥ getColumnCount h := by omega
  obtain ⟨_, h2b⟩ := resetSortSegment_segments
    { h with d_segments := h.d_segments.eraseIdx column } (segmentAt h column)
  simp only [removeColumn, hge, if_false]
  generalize resetSortSegment { h with d_segments := h.d_segments.eraseIdx column }
    (segmentAt h column) = g at h2b ⊢
  dsimp only at h2b
  simp [h2b, hwr, layoutSegments]

/-- C22. In a header with pairwise distinct segments and a window renderer,
for a column in range: if `removeColumn` removes the current sort segment and
at least one column remains, then afterwards `getSortColumn` returns 0 and the
sort direction of the header is `None`; if it removes the only column, then
afterwards `getSortSegment` throws `InvalidRequestException`; if the removed
column is not the sort column, the sort segment and the sort direction are
unchanged. -/
theorem removeColumn_sort_column (h : ListHeader) (column : Nat)
    (hnd : h.d_segments.Nodup) (hwr : h.d_windowRenderer = true)
    (hc : column < getColumnCount h) :
    (h.d_sortSegment = some (segmentAt h column) → getColumnCount h > 1 →
      getSortColumn (removeColumn h column).header = Except.ok 0 ∧
      getSortDirection (removeColumn h column).header = SortDirection.None) ∧
    (h.d_sortSegment = some (segmentAt h column) → getColumnCount h = 1 →
      getSortSegment (removeColumn h column).header
        = Except.error NodeError.InvalidRequest) ∧
    (h.d_sortSegment ≠ some (segmentAt h column) →
      (removeColumn h column).header.d_sortSegment = h.d_sortSegment ∧
      getSortDirection (removeColumn h column).header = getSortDirection h) := by
  obtain ⟨hss, hsd⟩ := removeColumn_sort h column hc hwr
  obtain ⟨hseg, _⟩ := removeColumn_header h column hc
  obtain ⟨hmany, hlast, hother⟩ := resetSortSegment_sort
    { h with d_segments := h.d_segments.eraseIdx column } (segmentAt h column)
  have hcl : column < h.d_segments.length := hc
  have hcount : getColumnCount { h with d_segments := h.d_segments.eraseIdx column }
      = getColumnCount h - 1 := by
    simp only [getColumnCount]
    rw [List.length_eraseIdx, if_pos hcl]
  refine ⟨?_, ?_, ?_⟩
  · intro hs hn
    obtain ⟨h1, h2⟩ := hmany hs (by rw [hcount]; omega)
    refine ⟨?_, ?_⟩
    · refine (getSortColumn_eq_iff _ 0 ?_ ?_).mpr ?_
      · rw [hseg]
        exact hnd.eraseIdx column
      · rw [getColumnCount, hseg, List.length_eraseIdx, if_pos hcl]
        have : getColumnCount h = h.d_segments.length := rfl
        omega
      · rw [hss, h1]
        simp only [segmentAt, hseg]
    · rw [getSortDirection, hsd, h2]
  · intro hs hn
    have h1 := hlast hs (by rw [hcount]; omega)
    rw [getSortSegment, hss, h1]
  · intro hs
    obtain ⟨h1, h2⟩ := hother hs
    exact ⟨hss.trans h1, by rw [getSortDirection, hsd, h2]; rfl⟩

/-- C22 on the example header, whose sort column is 0: removing column 0
makes the former column 1 the sort column 0, with direction `None`. -/
theorem removeColumn_sort_column_witness :
    getSortColumn (removeColumn sampleHeader 0).header = Except.ok 0 ∧
    getSortDirection (removeColumn sampleHeader 0).header = SortDirection.None :=
  (removeColumn_sort_column sampleHeader 0 (by decide) rfl (by decide)).1 rfl (by decide)


/-- When `setSortColumn` changes the sort column, the new sort segment gets
the sort direction of the header. -/
theorem setSortColumn_new_direction (h : ListHeader) (column : Nat)
    (hc : column < getColumnCount h) (hne : h.d_sortSegment ≠ some (segmentAt h column)) :
    ((setSortColumn h column).header.segmentStore (segmentAt h column)).d_sortDir
      = h.d_sortDir := by
  have hge : ¬ column ≥ getColumnCount h := by omega
  simp [setSortColumn, hge, hne, setSegmentSortDirection]

/-- For an attached segment that is not the sort segment, `setSortSegment`
succeeds, makes it the sort segment, gives it the sort direction of the
header, and leaves that direction as it is. -/
theorem setSortSegment_attached (h : ListHeader) (seg : Nat) (hmem : seg ∈ h.d_segments)
    (hne : h.d_sortSegment ≠ some seg) :
    (setSortSegment h seg).ret = Except.ok () ∧
    (setSortSegment h seg).header.d_sortSegment = some seg ∧
    (setSortSegment h seg).header.d_sortDir = h.d_sortDir ∧
    ((setSortSegment h seg).header.segmentStore seg).d_sortDir = h.d_sortDir := by
  cases hcol : getColumnFromSegment h seg with
  | error e =>
    cases e
    have hall := (lookup_error_iff (fun p => p == seg) h.d_segments).mp hcol
    have := hall seg hmem
    simp at this
  | ok c =>
    obtain ⟨p, hp, htp, _⟩ := (lookup_ok_iff (fun p => p == seg) h.d_segments c).mp hcol
    have hps : p = seg := by simpa using htp
    subst hps
    have hlt : c < getColumnCount h := by
      show c < h.d_segments.length
      rcases Nat.lt_or_ge c h.d_segments.length with hl | hl
      · exact hl
      · rw [List.getElem?_eq_none hl] at hp
        cases hp
    have hat : segmentAt h c = p := segmentAt_eq h c p hp
    have hne2 : h.d_sortSegment ≠ some (segmentAt h c) := by
      rw [hat]
      exact hne
    have hr : setSortSegment h p = setSortColumn h c := by
      simp [setSortSegment, hcol]
    rw [hr]
    refine ⟨setSortColumn_ret h c hlt, ?_, setSortColumn_sortDir h c, ?_⟩
    · rw [setSortColumn_sortSegment h c hlt, hat]
    · have := setSortColumn_new_direction h c hlt hne2
      rw [hat] at this
      exact this

/-- The member `setSortDirection` to a different direction writes the
direction into the header and into the sort segment, and keeps the sort
segment. -/
theorem setSortDirection_changed (h : ListHeader) (direction : SortDirection) (seg : Nat)
    (hs : h.d_sortSegment = some seg) (hne : h.d_sortDir ≠ direction) :
    (setSortDirection h direction).d_sortDir = direction ∧
    (setSortDirection h direction).d_sortSegment = some seg ∧
    ((setSortDirection h direction).segmentStore seg).d_sortDir = direction := by
  simp [setSortDirection, hne, hs, setSegmentSortDirection]

/-- C23. When sorting is disabled, `segmentClickedHandler` changes nothing.
When sorting is enabled and the clicked segment is attached and is not the
sort segment, it becomes the sort segment and the sort direction (of the
header and of the segment) becomes `Descending`.  When sorting is enabled and
the clicked segment is the sort segment, with the direction of the header, the
direction changes `None` to `Descending`, `Ascending` to `Descending` and
`Descending` to `Ascending`, so it is never `None` afterwards. -/
theorem segmentClicked_state_machine (h : ListHeader) (seg : Nat) :
    (h.d_sortingEnabled = false →
      segmentClickedHandler h seg = ⟨h, Except.ok true⟩) ∧
    (h.d_sortingEnabled = true → seg ∈ h.d_segments → h.d_sortSegment ≠ some seg →
      (segmentClickedHandler h seg).ret = Except.ok true ∧
      getSortSegment (segmentClickedHandler h seg).header = Except.ok seg ∧
      getSortDirection (segmentClickedHandler h seg).header = SortDirection.Descending ∧
      ((segmentClickedHandler h seg).header.segmentStore seg).d_sortDir
        = SortDirection.Descending) ∧
    (h.d_sortingEnabled = true → h.d_sortSegment = some seg →
      (h.segmentStore seg).d_sortDir = h.d_sortDir →
      (segmentClickedHandler h seg).ret = Except.ok true ∧
      getSortSegment (segmentClickedHandler h seg).header = Except.ok seg ∧
      getSortDirection (segmentClickedHandler h seg).header
        = (match getSortDirection h with
            | SortDirection.None => SortDirection.Descending
            | SortDirection.Ascending => SortDirection.Descending
            | SortDirection.Descending => SortDirection.Ascending) ∧
      getSortDirection (segmentClickedHandler h seg).header ≠ SortDirection.None ∧
      ((segmentClickedHandler h seg).header.segmentStore seg).d_sortDir
        = getSortDirection (segmentClickedHandler h seg).header) := by
  refine ⟨?_, ?_, ?_⟩
  · intro hen
    simp [segmentClickedHandler, hen]
  · intro hen hmem hne
    obtain ⟨hret, hss, hsd, hdir⟩ := setSortSegment_attached
      { h with d_sortDir := SortDirection.Descending } seg hmem hne
    unfold segmentClickedHandler
    rw [if_pos hen, if_pos hne]
    simp only []
    generalize setSortSegment { h with d_sortDir := SortDirection.Descending } seg = r
      at hret hss hsd hdir ⊢
    rw [hret]
    exact ⟨rfl, by rw [getSortSegment]; simp only [hss], hsd, hdir⟩
  · intro hen hs hdir
    have hnn : ¬ h.d_sortSegment ≠ some seg := not_not.mpr hs
    unfold segmentClickedHandler
    rw [if_pos hen, if_neg hnn]
    simp only [hs, hdir, getSortDirection, getSortSegment]
    cases hd : h.d_sortDir with
    | None =>
      obtain ⟨h1, h2, h3⟩ := setSortDirection_changed h SortDirection.Descending seg hs
        (by rw [hd]; decide)
      simp [toggleSortDirection, h1, h2, h3]
    | Ascending =>
      obtain ⟨h1, h2, h3⟩ := setSortDirection_changed h SortDirection.Descending seg hs
        (by rw [hd]; decide)
      simp [toggleSortDirection, h1, h2, h3]
    | Descending =>
      obtain ⟨h1, h2, h3⟩ := setSortDirection_changed h SortDirection.Ascending seg hs
        (by rw [hd]; decide)
      simp [toggleSortDirection, h1, h2, h3]


/-- After `setSegmentOffset` the segment offset is the given one. -/
theorem setSegmentOffset_offset (h : ListHeader) (offset : ℚ) :
    (setSegmentOffset h offset).d_segmentOffset = offset := by
  unfold setSegmentOffset
  split
  · rfl
  · rename_i heq
    exact not_not.mp heq

/-- The member `setSegmentOffset` changes neither the pixel widths of the
segments nor the pixel size of the header, so the scroll limit stays. -/
theorem setSegmentOffset_maxOffset (rnd : ℚ → ℚ) (h : ListHeader) (offset : ℚ) :
    maxOffset rnd (setSegmentOffset h offset) = maxOffset rnd h := by
  unfold setSegmentOffset
  split
  · simp only [maxOffset, getTotalSegmentsPixelExtent, layoutSegments]
    rw [← List.foldl_map (fun p => ((layoutLoop _ _ _) p).d_pixelWidth) (floatAdd rnd),
      ← List.foldl_map (fun p => (h.segmentStore p).d_pixelWidth) (floatAdd rnd)]
    congr 4
    funext p
    exact (layoutLoop_fields _ _ _ p).2.2.2.1
  · rfl

/-- C24. For a header whose pixel width is not negative, with
`maxOffset = max(0, total segment pixel extent - header pixel width)`, the sum
and the difference being those of `float` arithmetic: if the mouse is left of
the header and the offset is above 0, the new offset is `max(0, offset - 8)`;
if the mouse is at or right of the header width and the offset is below
`maxOffset`, the new offset is `min(maxOffset, offset + 8)`; otherwise the
header is unchanged.  The limit `maxOffset` is the same after the handler, and
an offset between 0 and `maxOffset` stays between 0 and `maxOffset`.  Of the
rounding of `float` arithmetic only monotonicity is used, and of the stored
offset that it is a `float` value, one that rounding leaves as it is. -/
theorem segmentDrag_bounds (rnd : ℚ → ℚ) (h : ListHeader) (localMouseX : ℚ)
    (hwidth : 0 ≤ h.d_pixelSize.d_width) (hmono : Monotone rnd)
    (hfloat : rnd h.d_segmentOffset = h.d_segmentOffset) :
    (localMouseX < 0 → h.d_segmentOffset > 0 →
      (segmentDragHandler rnd h localMouseX).d_segmentOffset
        = max 0 (floatSub rnd h.d_segmentOffset 8)) ∧
    (localMouseX ≥ h.d_pixelSize.d_width → h.d_segmentOffset < maxOffset rnd h →
      (segmentDragHandler rnd h localMouseX).d_segmentOffset
        = min (maxOffset rnd h) (floatAdd rnd h.d_segmentOffset 8)) ∧
    (¬ (localMouseX < 0 ∧ h.d_segmentOffset > 0) →
      ¬ (localMouseX ≥ h.d_pixelSize.d_width ∧ h.d_segmentOffset < maxOffset rnd h) →
      segmentDragHandler rnd h localMouseX = h) ∧
    maxOffset rnd (segmentDragHandler rnd h localMouseX) = maxOffset rnd h ∧
    (0 ≤ h.d_segmentOffset → h.d_segmentOffset ≤ maxOffset rnd h →
      0 ≤ (segmentDragHandler rnd h localMouseX).d_segmentOffset ∧
      (segmentDragHandler rnd h localMouseX).d_segmentOffset ≤ maxOffset rnd h) := by
  have hmax0 : 0 ≤ maxOffset rnd h := le_max_left _ _
  refine ⟨?_, ?_, ?_, ?_, ?_⟩
  · intro hx ho
    rw [segmentDragHandler, if_pos hx, if_pos ho, setSegmentOffset_offset]
    rfl
  · intro hx ho
    have hx0 : ¬ localMouseX < 0 := not_lt.mpr (le_trans hwidth hx)
    rw [segmentDragHandler, if_neg hx0, if_pos hx, if_pos ho, setSegmentOffset_offset]
    rfl
  · intro h1 h2
    unfold segmentDragHandler
    by_cases hx : localMouseX < 0
    · have ho : ¬ h.d_segmentOffset > 0 := fun ho => h1 ⟨hx, ho⟩
      rw [if_pos hx, if_neg ho]
    · rw [if_neg hx]
      by_cases hw : localMouseX ≥ h.d_pixelSize.d_width
      · have ho : ¬ h.d_segmentOffset < maxOffset rnd h := fun ho => h2 ⟨hw, ho⟩
        rw [if_pos hw, if_neg ho]
      · rw [if_neg hw]
  · unfold segmentDragHandler
    split
    · split
      · exact setSegmentOffset_maxOffset _ _ _
      · rfl
    · split
      · split
        · exact setSegmentOffset_maxOffset _ _ _
        · rfl
      · rfl
  · intro hlo hhi
    unfold segmentDragHandler
    split
    · split
      · rw [setSegmentOffset_offset]
        refine ⟨le_max_left _ _, max_le hmax0 ?_⟩
        have h1 : rnd (h.d_segmentOffset - ScrollSpeed) ≤ rnd h.d_segmentOffset := by
          apply hmono
          simp only [ScrollSpeed]
          linarith
        rw [hfloat] at h1
        exact le_trans h1 hhi
      · exact ⟨hlo, hhi⟩
    · split
      · split
        · rw [setSegmentOffset_offset]
          refine ⟨le_min hmax0 ?_, min_le_left _ _⟩
          have h1 : rnd h.d_segmentOffset ≤ rnd (h.d_segmentOffset + ScrollSpeed) := by
            apply hmono
            simp only [ScrollSpeed]
            linarith
          rw [hfloat] at h1
          exact le_trans hlo h1
        · exact ⟨hlo, hhi⟩
      · exact ⟨hlo, hhi⟩

/-- The total pixel extent of the example header in binary32 arithmetic. -/
theorem sampleHeader_extent :
    getTotalSegmentsPixelExtent binary32 { sampleHeader with d_pixelSize := ⟨100, 20⟩ }
      = 180 := by
  have b50 : binary32 50 = 50 := by exact_mod_cast binary32_natCast 50 (by norm_num)
  have b110 : binary32 110 = 110 := by exact_mod_cast binary32_natCast 110 (by norm_num)
  have b180 : binary32 180 = 180 := by exact_mod_cast binary32_natCast 180 (by norm_num)
  have hw0 : (sampleHeader.segmentStore 0).d_pixelWidth = 50 := by with_unfolding_all rfl
  have hw1 : (sampleHeader.segmentStore 1).d_pixelWidth = 60 := by with_unfolding_all rfl
  have hw2 : (sampleHeader.segmentStore 2).d_pixelWidth = 70 := by with_unfolding_all rfl
  have hseg : sampleHeader.d_segments = [0, 1, 2] := sampleHeader_segments
  simp only [getTotalSegmentsPixelExtent, hseg, List.foldl_cons, List.foldl_nil, floatAdd,
    hw0, hw1, hw2]
  norm_num [b50, b110, b180]

/-- C24 in binary32 arithmetic, on the example header made 100 pixels wide
(segments 180 pixels in total, so the limit is 80): with the mouse at 150 the
offset goes from 0 to 8. -/
theorem segmentDrag_bounds_witness :
    (0 : ℚ) ≤ 100 ∧
    (segmentDragHandler binary32 { sampleHeader with d_pixelSize := ⟨100, 20⟩ } 150).d_segmentOffset
      = 8 ∧
    maxOffset binary32
      (segmentDragHandler binary32 { sampleHeader with d_pixelSize := ⟨100, 20⟩ } 150) = 80 := by
  have hw : (0 : ℚ) ≤ 100 := by norm_num
  have hoff : ({ sampleHeader with d_pixelSize := ⟨100, 20⟩ } : ListHeader).d_segmentOffset
      = 0 := rfl
  have h := segmentDrag_bounds binary32 { sampleHeader with d_pixelSize := ⟨100, 20⟩ } 150 hw
    binary32_monotone (by rw [hoff]; exact binary32_zero)
  have b80 : binary32 80 = 80 := by exact_mod_cast binary32_natCast 80 (by norm_num)
  have b8 : binary32 8 = 8 := by exact_mod_cast binary32_natCast 8 (by norm_num)
  have hmax : maxOffset binary32 { sampleHeader with d_pixelSize := ⟨100, 20⟩ } = 80 := by
    rw [maxOffset, sampleHeader_extent]
    simp only [floatSub]
    norm_num [b80]
  refine ⟨hw, ?_, ?_⟩
  · rw [h.2.1 (by show (100 : ℚ) ≤ 150; norm_num) (by rw [hmax, hoff]; norm_num), hmax, hoff]
    simp only [floatAdd]
    norm_num [b8]
  · rw [h.2.2.2.1, hmax]

end ListHeader

end CEGUI
